import Mathlib

/-! Blockchain transaction engine (`src/profanity2/Ethereum.cpp`), notification client
(`Telegram.cpp`), record store (`Database.cpp`) and address monitor (`WebSocket.cpp`).

A shallow embedding of the hashing, encoding, call-data and response-parsing
routines of the transaction engine and of the state and callbacks of the other three
components, followed by theorems about them.

Conventions of the embedding:
* a byte (`uint8_t`) is a `Nat`; every store that narrows a wider value to a byte
  is written `% 256`;
* a `uint64_t` is a `Nat`; arithmetic that can wrap is written `% 2 ^ 64`;
* `std::vector<uint8_t>` is `List Nat`, `std::string` is `List Char`;
* a C++ exception is the `none` of an `Option`.
-/

namespace Ethereum

/-! ## Keccak-f[1600] -/

/-- Round constants, `keccakf_rndc[24]`. -/
def keccakf_rndc : List Nat := [
  0x0000000000000001, 0x0000000000008082, 0x800000000000808a,
  0x8000000080008000, 0x000000000000808b, 0x0000000080000001,
  0x8000000080008081, 0x8000000000008009, 0x000000000000008a,
  0x0000000000000088, 0x0000000080008009, 0x000000008000000a,
  0x000000008000808b, 0x800000000000008b, 0x8000000000008089,
  0x8000000000008003, 0x8000000000008002, 0x8000000000000080,
  0x000000000000800a, 0x800000008000000a, 0x8000000080008081,
  0x8000000000008080, 0x0000000080000001, 0x8000000080008008]

/-- Rotation offsets, `keccakf_rotc[24]`. -/
def keccakf_rotc : List Nat :=
  [1, 3, 6, 10, 15, 21, 28, 36, 45, 55, 2, 14, 27, 41, 56, 8, 25, 43, 62, 18, 39, 61, 20, 44]

/-- Lane permutation, `keccakf_piln[24]`. -/
def keccakf_piln : List Nat :=
  [10, 7, 11, 17, 18, 3, 5, 16, 8, 21, 24, 4, 15, 23, 19, 13, 12, 2, 20, 14, 22, 9, 6, 1]

/-- The macro `ROTL64(x, y)` on 64-bit lanes: `(x << y) | (x >> (64 - y))`,
the left shift truncated to 64 bits. -/
def ROTL64 (x y : Nat) : Nat :=
  ((x <<< y) % 2 ^ 64) ||| (x >>> (64 - y))

/-- Array read `a[i]` (the source never reads out of bounds). -/
def rd (a : List Nat) (i : Nat) : Nat := a.getD i 0

/-- Theta, first loop: the five column parities `bc[i]`. -/
def thetaParity (st : List Nat) : List Nat :=
  (List.range 5).map fun i =>
    rd st i ^^^ rd st (i + 5) ^^^ rd st (i + 10) ^^^ rd st (i + 15) ^^^ rd st (i + 20)

/-- Theta, second loop: `st[j + i] ^= t` for `j = 0, 5, .., 20`, for each column `i`. -/
def theta (st : List Nat) : List Nat :=
  let bc := thetaParity st
  (List.range 5).foldl (fun st i =>
    let t := rd bc ((i + 4) % 5) ^^^ ROTL64 (rd bc ((i + 1) % 5)) 1
    [0, 5, 10, 15, 20].foldl (fun st j => st.set (j + i) (rd st (j + i) ^^^ t)) st) st

/-- Rho and Pi: the 24-step lane walk starting from `t = st[1]`. -/
def rhoPi (st : List Nat) : List Nat :=
  ((List.range 24).foldl (fun (p : List Nat × Nat) i =>
    let j := rd keccakf_piln i
    let bc0 := rd p.1 j
    (p.1.set j (ROTL64 p.2 (rd keccakf_rotc i)), bc0)) (st, rd st 1)).1

/-- Chi: per row `j`, `st[j + i] ^= (~bc[(i + 1) % 5]) & bc[(i + 2) % 5]`. -/
def chi (st : List Nat) : List Nat :=
  [0, 5, 10, 15, 20].foldl (fun st j =>
    let bc := (List.range 5).map fun i => rd st (j + i)
    (List.range 5).foldl (fun st i =>
      st.set (j + i)
        (rd st (j + i) ^^^ (((2 ^ 64 - 1) ^^^ rd bc ((i + 1) % 5)) &&& rd bc ((i + 2) % 5)))) st) st

/-- Iota: `st[0] ^= keccakf_rndc[round]`. -/
def iota (round : Nat) (st : List Nat) : List Nat :=
  st.set 0 (rd st 0 ^^^ rd keccakf_rndc round)

/-- One round of the permutation. -/
def keccakRound (st : List Nat) (round : Nat) : List Nat :=
  iota round (chi (rhoPi (theta st)))

/-- The permutation `keccakf`: 24 rounds. -/
def keccakf (st : List Nat) : List Nat :=
  (List.range 24).foldl keccakRound st

/-! ## Keccak-256 sponge -/

/-- The lane `((uint64_t*)temp)[j]`: eight bytes read as a little-endian word. -/
def lane (temp : List Nat) (j : Nat) : Nat :=
  (List.range 8).foldl (fun acc k => acc + rd temp (8 * j + k) * 256 ^ k) 0

/-- The absorb loop `for j < rsiz / 8: st[j] ^= ((uint64_t*)temp)[j]`. -/
def absorb (st temp : List Nat) : List Nat :=
  (List.range 17).foldl (fun st j => st.set j (rd st j ^^^ lane temp j)) st

/-- The sponge state while input is consumed: lanes, block buffer, write position. -/
structure Sponge where
  st : List Nat
  temp : List Nat
  pt : Nat

/-- One iteration of the input loop: store the byte, absorb a full block. -/
def Sponge.feed (s : Sponge) (b : Nat) : Sponge :=
  let temp := s.temp.set s.pt b
  let pt := s.pt + 1
  if pt ≥ 136 then ⟨keccakf (absorb s.st temp), temp, 0⟩ else ⟨s.st, temp, pt⟩

/-- Padding: `temp[pt++] = 0x01`, zero fill, `temp[rsiz - 1] |= 0x80`. -/
def pad (temp : List Nat) (pt : Nat) : List Nat :=
  let temp := temp.set pt 0x01
  let temp := (List.range (136 - (pt + 1))).foldl (fun t k => t.set (pt + 1 + k) 0) temp
  temp.set 135 (rd temp 135 ||| 0x80)

/-- The bytes `memcpy(result.data(), st, 32)` copies: the first four lanes, little-endian. -/
def squeeze (st : List Nat) : List Nat :=
  (List.range 32).map fun k => (rd st (k / 8) >>> (8 * (k % 8))) % 256

/-- The hashing routine `Ethereum::keccak256`. -/
def keccak256 (data : List Nat) : List Nat :=
  let s := data.foldl Sponge.feed ⟨List.replicate 25 0, List.replicate 136 0, 0⟩
  squeeze (keccakf (absorb s.st (pad s.temp s.pt)))

/-! ## Minimal integer encoding and RLP -/

/-- The loop of `uint64ToBytes`:
`while (value > 0) { bytes.insert(bytes.begin(), value & 0xFF); value >>= 8; }`.
The first argument counts the iterations still allowed: a 64-bit value is zero after
at most eight shifts by 8. -/
def uint64ToBytes.loop : Nat → Nat → List Nat → List Nat
  | 0, _, bytes => bytes
  | fuel + 1, value, bytes =>
    if value > 0 then loop fuel (value >>> 8) ((value &&& 0xFF) :: bytes) else bytes

/-- The routine `Ethereum::uint64ToBytes` on a 64-bit `value`. -/
def uint64ToBytes (value : Nat) : List Nat :=
  if value = 0 then [] else uint64ToBytes.loop 8 value []

/-- The routine `Ethereum::rlpEncode`; `push_back` of a `size_t` narrows it to a byte. -/
def rlpEncode (data : List Nat) : List Nat :=
  if data.length = 1 ∧ rd data 0 < 0x80 then data
  else if data.length ≤ 55 then [(0x80 + data.length) % 256] ++ data
  else
    let lenBytes := uint64ToBytes data.length
    [(0xb7 + lenBytes.length) % 256] ++ lenBytes ++ data

/-- The routine `Ethereum::rlpEncodeList`. -/
def rlpEncodeList (items : List (List Nat)) : List Nat :=
  let payload := items.foldl (fun payload item => payload ++ rlpEncode item) []
  if payload.length ≤ 55 then [(0xc0 + payload.length) % 256] ++ payload
  else
    let lenBytes := uint64ToBytes payload.length
    [(0xf7 + lenBytes.length) % 256] ++ lenBytes ++ payload

/-- The number a byte sequence denotes when read big-endian. -/
def beValue (bs : List Nat) : Nat := bs.foldl (fun acc b => acc * 256 + b) 0

/-- The byte sequence `bs` is a minimal big-endian encoding of `n`: it consists of
bytes, denotes `n`, and does not start with a zero byte. -/
def MinimalBE (bs : List Nat) (n : Nat) : Prop :=
  (∀ b ∈ bs, b < 256) ∧ beValue bs = n ∧ bs.head? ≠ some 0

instance (bs : List Nat) (n : Nat) : Decidable (MinimalBE bs n) := by
  unfold MinimalBE; infer_instance

/-! ## Hexadecimal text -/

/-- The C-locale `isspace`. -/
def isSpace (c : Char) : Bool := c.toNat = 32 || (9 ≤ c.toNat && c.toNat ≤ 13)

/-- The value of a hexadecimal digit, `none` for any other character. -/
def hexDigit (c : Char) : Option Nat :=
  if 48 ≤ c.toNat ∧ c.toNat ≤ 57 then some (c.toNat - 48)
  else if 97 ≤ c.toNat ∧ c.toNat ≤ 102 then some (c.toNat - 87)
  else if 65 ≤ c.toNat ∧ c.toNat ≤ 70 then some (c.toNat - 55)
  else none

/-- The character is one of `0-9`, `a-f`, `A-F`. -/
def isHexDigit (c : Char) : Bool := (hexDigit c).isSome

/-- The calls `std::stoul(s, nullptr, 16)` and `std::stoull(s, nullptr, 16)` (both 64-bit):
leading white space, an optional sign, an optional `0x`/`0X` that a hexadecimal digit
follows, then the longest run of hexadecimal digits. `none` stands for the exception:
`std::invalid_argument` when there is no digit, `std::out_of_range` when the digits
exceed 64 bits. A minus sign negates modulo `2 ^ 64`. -/
def stoul16 (s : List Char) : Option Nat :=
  let s1 := s.dropWhile isSpace
  let neg := s1.head? = some '-'
  let s2 := if s1.head? = some '-' ∨ s1.head? = some '+' then s1.tail else s1
  let s3 :=
    if s2.head? = some '0' ∧ (s2.get? 1 = some 'x' ∨ s2.get? 1 = some 'X')
        ∧ (s2.get? 2).map isHexDigit = some true
    then s2.drop 2 else s2
  let digits := s3.takeWhile isHexDigit
  if digits = [] then none
  else
    let v := digits.foldl (fun acc c => acc * 16 + (hexDigit c).getD 0) 0
    if v ≥ 2 ^ 64 then none
    else some (if neg then (2 ^ 64 - v) % 2 ^ 64 else v)

/-- The loop of `hexToBytes`: `for (i = 0; i < h.length(); i += 2)` pushing
`static_cast<uint8_t>(std::stoul(h.substr(i, 2), nullptr, 16))`. -/
def hexToBytes.loop : List Char → Option (List Nat)
  | [] => some []
  | [a] => (stoul16 [a]).map fun v => [v % 256]
  | a :: b :: rest =>
    match stoul16 [a, b], hexToBytes.loop rest with
    | some v, some bytes => some (v % 256 :: bytes)
    | _, _ => none

/-- The routine `Ethereum::hexToBytes`; `none` when `std::stoul` throws. -/
def hexToBytes (hex : List Char) : Option (List Nat) :=
  let h := if hex.take 2 = ['0', 'x'] ∨ hex.take 2 = ['0', 'X'] then hex.drop 2 else hex
  hexToBytes.loop h

/-- The routine `Ethereum::addressToBytes`. -/
def addressToBytes (address : List Char) : Option (List Nat) := hexToBytes address

/-- The bytes a string of hexadecimal digits denotes, two digits a byte. -/
def bytesOfHex : List Char → List Nat
  | a :: b :: rest => (16 * (hexDigit a).getD 0 + (hexDigit b).getD 0) :: bytesOfHex rest
  | _ => []

/-- The padding loop `for (size_t i = 0; i < 32 - n; i++) data.push_back(0)`. The bound
is a `size_t`: for `n > 32` it wraps to at least `2 ^ 64 - n` and the vector outgrows
`max_size()`, so `push_back` throws (`none`). -/
def padTo32 (data : List Nat) (n : Nat) : Option (List Nat) :=
  if n ≤ 32 then some (data ++ List.replicate (32 - n) 0) else none

/-- The routine `Ethereum::buildTransferFromData`; `none` when an exception is thrown. -/
def buildTransferFromData (fromAddr toAddr : List Char) : Option (List Nat) :=
  match addressToBytes fromAddr, addressToBytes toAddr with
  | some fromBytes, some toBytes =>
    match padTo32 [0x23, 0xb8, 0x72, 0xdd] fromBytes.length with
    | none => none
    | some data =>
      match padTo32 (data ++ fromBytes) toBytes.length with
      | none => none
      | some data => some (data ++ toBytes ++ List.replicate 32 0)
  | _, _ => none

/-! ## Signing -/

/-- The elliptic-curve library, as the engine uses it. -/
structure Secp256k1 where
  /-- The calls `secp256k1_ec_pubkey_create` and `secp256k1_ec_pubkey_serialize`: the 65
  bytes of the uncompressed public key of a private key, `none` when creation fails. -/
  pubkey : List Nat → Option (List Nat)
  /-- The calls `secp256k1_ecdsa_sign_recoverable` and `..._serialize_compact` on a digest
  and a private key: the 32 bytes of `r`, the 32 bytes of `s` and the recovery id,
  `none` when signing fails. -/
  sign : List Nat → List Nat → Option (List Nat × List Nat × Nat)

/-- The fields of the engine singleton. -/
structure Engine where
  m_rpcUrl : List Char
  m_privateKey : List Nat
  m_fundingAddress : List Char
  m_chainId : Nat

/-- The routine `Ethereum::ecdsaSign`: `none` is the result `false`, otherwise the
out-parameters `r`, `s` and `v = static_cast<uint8_t>(recid)`. -/
def ecdsaSign (lib : Secp256k1) (e : Engine) (hash : List Nat) :
    Option (List Nat × List Nat × Nat) :=
  match lib.sign hash e.m_privateKey with
  | none => none
  | some (r, s, recid) => some (r, s, recid % 256)

/-- The list `txItems` of `signTransaction`: the nine items that are hashed. -/
def txItems (e : Engine) (toBytes data : List Nat) (nonce gasPrice gasLimit : Nat) :
    List (List Nat) :=
  [uint64ToBytes nonce, uint64ToBytes gasPrice, uint64ToBytes gasLimit, toBytes, [], data,
   uint64ToBytes e.m_chainId, [], []]

/-- The list `signedTx` of `signTransaction`, with `uint64_t v = m_chainId * 2 + 35 + recid`;
`none` when `ecdsaSign` returns `false`. -/
def signedTx (lib : Secp256k1) (e : Engine) (toBytes data : List Nat)
    (nonce gasPrice gasLimit : Nat) : Option (List (List Nat)) :=
  let hash := keccak256 (rlpEncodeList (txItems e toBytes data nonce gasPrice gasLimit))
  match ecdsaSign lib e hash with
  | none => none
  | some (r, s, recid) =>
    let v := (e.m_chainId * 2 + 35 + recid) % 2 ^ 64
    some [uint64ToBytes nonce, uint64ToBytes gasPrice, uint64ToBytes gasLimit, toBytes, [], data,
          uint64ToBytes v, r, s]

/-- The routine `Ethereum::signTransaction`: the outer `none` is an exception of
`addressToBytes`, the empty list is the `return {}` after a failed signature. -/
def signTransaction (lib : Secp256k1) (e : Engine) (toAddr : List Char) (data : List Nat)
    (nonce gasPrice gasLimit : Nat) : Option (List Nat) :=
  match addressToBytes toAddr with
  | none => none
  | some toBytes =>
    match signedTx lib e toBytes data nonce gasPrice gasLimit with
    | none => some []
    | some items => some (rlpEncodeList items)

/-- An engine with the default configuration and the given chain id and funding key. -/
def engineWith (chainId : Nat) (key : List Nat) : Engine :=
  ⟨"http://localhost:8545".toList, key, [], chainId⟩

/-- A library whose signer returns the same `(r, s, recid)` for every digest and key. -/
def constSigner (r s : List Nat) (recid : Nat) : Secp256k1 :=
  ⟨fun _ => none, fun _ _ => some (r, s, recid)⟩

/-- A library that derives the same public key for every key and returns the same
`(r, s, recid)` for every digest and key. -/
def constWallet (pubkeyBytes r s : List Nat) (recid : Nat) : Secp256k1 :=
  ⟨fun _ => some pubkeyBytes, fun _ _ => some (r, s, recid)⟩

/-- A library that derives a public key for the one-byte key `01` only and never signs. -/
def oneKeyLib : Secp256k1 :=
  ⟨fun key => if key = [1] then some (List.replicate 65 4) else none, fun _ _ => none⟩

/-! ## JSON-RPC responses -/

/-- The search loop of `std::string::find`: the first position at which `pat` starts in
the given rest of the string, whose head is at position `i`. -/
def findFrom (pat : List Char) : List Char → Nat → Option Nat
  | [], i => if pat = [] then some i else none
  | c :: cs, i => if pat.isPrefixOf (c :: cs) then some i else findFrom pat cs (i + 1)

/-- The call `s.find(pat, pos)`; `none` is `std::string::npos`. -/
def find (s pat : List Char) (pos : Nat) : Option Nat :=
  if pos > s.length then none else findFrom pat (s.drop pos) pos

/-- The literal `"\"result\":\"0x"` (12 characters). -/
def resultKey : List Char :=
  ['"', 'r', 'e', 's', 'u', 'l', 't', '"', ':', '"', '0', 'x']

/-- The call `response.substr(pos, end - pos)` where `end = response.find("\"", pos)` and
`pos` is within the string: up to the quote, or, when `end` is `npos`, the rest of the
string (the count `npos - pos` exceeds what is left). -/
def substrToQuote (response : List Char) (pos : Nat) (stop : Option Nat) : List Char :=
  match stop with
  | none => response.drop pos
  | some i => (response.drop pos).take (i - pos)

/-- The routine `Ethereum::extractTxHashFromResponse`. -/
def extractTxHashFromResponse (response : List Char) : List Char :=
  match find response resultKey 0 with
  | none => []
  | some p =>
    let pos := p + 12
    match find response ['"'] pos with
    | none => []
    | some i => ['0', 'x'] ++ substrToQuote response pos (some i)

/-- The routine `Ethereum::getGasPrice`, given the node as the function `rpcCall` from a
method and its parameters to the response text; `none` when `std::stoull` throws. -/
def getGasPrice (rpcCall : List Char → List Char → List Char) : Option Nat :=
  let response := rpcCall "eth_gasPrice".toList "[]".toList
  match find response resultKey 0 with
  | none => some 20000000000
  | some p =>
    let pos := p + 12
    stoul16 (substrToQuote response pos (find response ['"'] pos))


/-! ## Funding wallet and transfers -/

/-- One digit of `std::hex` output (lowercase). -/
def hexChar (n : Nat) : Char := if n < 10 then Char.ofNat (48 + n) else Char.ofNat (87 + n)

/-- The routine `Ethereum::bytesToHex`: `std::hex`, `setfill('0')`, `setw(2)` for each byte. -/
def bytesToHex (bytes : List Nat) : List Char :=
  bytes.foldl (fun ss b => ss ++ [hexChar (b / 16), hexChar (b % 16)]) []

/-- The address of a serialized public key, as `setFundingKey` and `sendNativeTokenFrom`
compute it: skip the first of the 65 bytes, hash the other 64, and write the last 20 bytes
of the digest in hexadecimal after `0x`. -/
def addressOfPubkey (pubkeyBytes : List Nat) : List Char :=
  let hash := keccak256 ((pubkeyBytes.drop 1).take 64)
  ['0', 'x'] ++ bytesToHex (hash.drop (hash.length - 20))

/-- The routine `Ethereum::setFundingKey`: the engine afterwards, `none` when `hexToBytes`
throws. The key is stored before the derivation is attempted. -/
def setFundingKey (lib : Secp256k1) (e : Engine) (privateKeyHex : List Char) : Option Engine :=
  match hexToBytes privateKeyHex with
  | none => none
  | some key =>
    match lib.pubkey key with
    | none => some ⟨e.m_rpcUrl, key, e.m_fundingAddress, e.m_chainId⟩
    | some pubkeyBytes => some ⟨e.m_rpcUrl, key, addressOfPubkey pubkeyBytes, e.m_chainId⟩

/-- The routine `Ethereum::setChainId`. -/
def setChainId (e : Engine) (chainId : Nat) : Engine :=
  ⟨e.m_rpcUrl, e.m_privateKey, e.m_fundingAddress, chainId⟩

/-- The routine `Ethereum::rpcCall` against a node, given as the function from the endpoint,
the method and its parameters to the response text (the empty text when the call fails). -/
def rpcCall (node : List Char → List Char → List Char → List Char) (e : Engine)
    (method params : List Char) : List Char :=
  node e.m_rpcUrl method params

/-- The parameters `"[\"" + address + "\", \"latest\"]"` of `eth_getTransactionCount`. -/
def nonceParams (address : List Char) : List Char :=
  "[\"".toList ++ address ++ "\", \"latest\"]".toList

/-- The parsing of the nonce in `getNonce` and in `sendNativeTokenFrom`: `0` without the
key, otherwise `std::stoull` on what follows it (`none` when it throws). -/
def parseNonce (response : List Char) : Option Nat :=
  match find response resultKey 0 with
  | none => some 0
  | some p =>
    let pos := p + 12
    stoul16 (substrToQuote response pos (find response ['"'] pos))

/-- The routine `Ethereum::getNonce`. -/
def getNonce (rpc : List Char → List Char → List Char) (e : Engine) : Option Nat :=
  parseNonce (rpc "eth_getTransactionCount".toList (nonceParams e.m_fundingAddress))

/-- The routine `Ethereum::sendRawTransaction`: the response text. -/
def sendRawTransaction (rpc : List Char → List Char → List Char) (signedTx : List Nat) :
    List Char :=
  rpc "eth_sendRawTransaction".toList
    ("[\"".toList ++ (['0', 'x'] ++ bytesToHex signedTx) ++ "\"]".toList)

/-- What a transfer leaves behind: the engine, the raw transactions handed to
`sendRawTransaction`, and the returned text. -/
structure SendOutcome where
  engine : Engine
  broadcast : List (List Nat)
  txHash : List Char

/-- The nine items hashed by `sendNativeToken` and `sendNativeTokenFrom`. -/
def nativeTxItems (e : Engine) (toBytes valueBytes : List Nat) (nonce gasPrice : Nat) :
    List (List Nat) :=
  [uint64ToBytes nonce, uint64ToBytes gasPrice, uint64ToBytes 21000, toBytes, valueBytes, [],
   uint64ToBytes e.m_chainId, [], []]

/-- The nine items of the signed transfer, with `uint64_t v = m_chainId * 2 + 35 + recid`. -/
def nativeSignedTx (e : Engine) (toBytes valueBytes : List Nat) (nonce gasPrice : Nat)
    (r s : List Nat) (recid : Nat) : List (List Nat) :=
  [uint64ToBytes nonce, uint64ToBytes gasPrice, uint64ToBytes 21000, toBytes, valueBytes, [],
   uint64ToBytes ((e.m_chainId * 2 + 35 + recid) % 2 ^ 64), r, s]

/-- The routine `Ethereum::sendNativeToken`; `none` when an exception is thrown. -/
def sendNativeToken (lib : Secp256k1) (node : List Char → List Char → List Char → List Char)
    (e : Engine) (toAddress : List Char) (amountWei : Nat) : Option SendOutcome :=
  if e.m_privateKey = [] then some ⟨e, [], []⟩
  else
    match getNonce (rpcCall node e) e with
    | none => none
    | some nonce =>
      match getGasPrice (rpcCall node e) with
      | none => none
      | some gasPrice =>
        match addressToBytes toAddress with
        | none => none
        | some toBytes =>
          let valueBytes := uint64ToBytes amountWei
          let hash := keccak256 (rlpEncodeList (nativeTxItems e toBytes valueBytes nonce gasPrice))
          match ecdsaSign lib e hash with
          | none => some ⟨e, [], []⟩
          | some (r, s, recid) =>
            let signedTxBytes :=
              rlpEncodeList (nativeSignedTx e toBytes valueBytes nonce gasPrice r s recid)
            let response := sendRawTransaction (rpcCall node e) signedTxBytes
            some ⟨e, [signedTxBytes], extractTxHashFromResponse response⟩

/-- The routine `Ethereum::sendNativeTokenFrom`; `none` when an exception is thrown. The
recovery id is used as the library returns it (an `int`). -/
def sendNativeTokenFrom (lib : Secp256k1)
    (node : List Char → List Char → List Char → List Char) (e : Engine)
    (privateKeyHex toAddress : List Char) (amountWei : Nat) : Option SendOutcome :=
  match hexToBytes privateKeyHex with
  | none => none
  | some privKey =>
    match lib.pubkey privKey with
    | none => some ⟨e, [], []⟩
    | some pubkeyBytes =>
      let fromAddress := addressOfPubkey pubkeyBytes
      let response := rpcCall node e "eth_getTransactionCount".toList (nonceParams fromAddress)
      match parseNonce response with
      | none => none
      | some nonce =>
        match getGasPrice (rpcCall node e) with
        | none => none
        | some gasPrice =>
          match addressToBytes toAddress with
          | none => none
          | some toBytes =>
            let valueBytes := uint64ToBytes amountWei
            let hash :=
              keccak256 (rlpEncodeList (nativeTxItems e toBytes valueBytes nonce gasPrice))
            match lib.sign hash privKey with
            | none => some ⟨e, [], []⟩
            | some (r, s, recid) =>
              let signedTxBytes :=
                rlpEncodeList (nativeSignedTx e toBytes valueBytes nonce gasPrice r s recid)
              let txResponse := sendRawTransaction (rpcCall node e) signedTxBytes
              some ⟨e, [signedTxBytes], extractTxHashFromResponse txResponse⟩

/-! ## Confirmation polling -/

/-- The literal `"\"blockNumber\":"`. -/
def blockNumberKey : List Char := "\"blockNumber\":".toList

/-- The loop of `waitForConfirmation`, with `i` the loop counter and the first argument the
iterations left (`maxWaitSeconds - i`); `receipt i` is the response to the poll made in
iteration `i`. The result is the returned flag and the number of polls issued. -/
def waitForConfirmation.loop (receipt : Nat → List Char) : Nat → Nat → Bool × Nat
  | 0, i => (false, i)
  | left + 1, i =>
    if find (receipt i) blockNumberKey 0 ≠ none then (true, i + 1)
    else waitForConfirmation.loop receipt left (i + 1)

/-- The routine `Ethereum::waitForConfirmation`, the node answering the `k`-th call it
receives by `node k method params`: the returned flag and the number of polls issued. -/
def waitForConfirmation (node : Nat → List Char → List Char → List Char) (txHash : List Char)
    (maxWaitSeconds : Int) : Bool × Nat :=
  waitForConfirmation.loop
    (fun i => node i "eth_getTransactionReceipt".toList
      ("[\"".toList ++ txHash ++ "\"]".toList))
    maxWaitSeconds.toNat 0

end Ethereum

/-! ## Notification client (`src/profanity2/Telegram.cpp`) -/

namespace Telegram

/-- The fields of the notification client. -/
structure Config where
  m_botToken : List Char
  m_chatId : List Char

/-- The literal `"\"ok\":true"`. -/
def okKey : List Char := "\"ok\":true".toList

/-- The URL `"https://api.telegram.org/bot" + m_botToken + "/sendMessage"`. -/
def url (t : Config) : List Char :=
  "https://api.telegram.org/bot".toList ++ t.m_botToken ++ "/sendMessage".toList

/-- The body `"chat_id=" + m_chatId + "&text=" + encodedMsg`, with `escape` standing for
`curl_easy_escape`. -/
def postData (escape : List Char → List Char) (t : Config) (message : List Char) : List Char :=
  "chat_id=".toList ++ t.m_chatId ++ "&text=".toList ++ escape message

/-- The routine `Telegram::sendMessage`. The transfer library is given by `curlInit` (whether
`curl_easy_init` yields a handle) and `perform` (the response body of a POST of a body to a
URL, `none` when `curl_easy_perform` fails). The result is the returned flag and the
requests issued, each a URL and a body. -/
def sendMessage (escape : List Char → List Char) (curlInit : Bool)
    (perform : List Char → List Char → Option (List Char)) (t : Config) (message : List Char) :
    Bool × List (List Char × List Char) :=
  if t.m_botToken = [] ∨ t.m_chatId = [] then (false, [])
  else if ¬ curlInit then (false, [])
  else
    match perform (url t) (postData escape t message) with
    | none => (false, [(url t, postData escape t message)])
    | some response =>
      (decide (Ethereum.find response okKey 0 ≠ none), [(url t, postData escape t message)])

end Telegram

/-! ## Record store (`src/profanity2/Database.cpp`) -/

namespace Database

/-- The calls made to the database engine. -/
inductive Call where
  | sqlite3_open
  | sqlite3_exec
  | sqlite3_prepare_v2
  | sqlite3_bind
  | sqlite3_step
  | sqlite3_finalize
  | sqlite3_close
  deriving DecidableEq

/-- The field of the store: the connection handle `m_db`, `none` for `nullptr`. -/
structure Store where
  m_db : Option Nat
  deriving DecidableEq

/-- The routine `Database::init`. The engine is given by what `sqlite3_open` returns
(`openOk` for `SQLITE_OK`) and writes to `m_db` (`handle`), and by whether `sqlite3_exec`
returns `SQLITE_OK`. The result is the store afterwards, the returned flag and the engine
calls made. -/
def init (s : Store) (openOk : Bool) (handle : Option Nat) (execOk : Bool) :
    Store × Bool × List Call :=
  if s.m_db ≠ none then (s, true, [])
  else if ¬ openOk then (⟨handle⟩, false, [Call.sqlite3_open])
  else if ¬ execOk then (⟨handle⟩, false, [Call.sqlite3_open, Call.sqlite3_exec])
  else (⟨handle⟩, true, [Call.sqlite3_open, Call.sqlite3_exec])

/-- The routine `Database::insertKeypair`, given whether `sqlite3_prepare_v2` returns
`SQLITE_OK` and whether `sqlite3_step` returns `SQLITE_DONE`: the returned flag and the
engine calls made. -/
def insertKeypair (s : Store) (prepareOk stepDone : Bool) : Bool × List Call :=
  if s.m_db = none then (false, [])
  else if ¬ prepareOk then (false, [Call.sqlite3_prepare_v2])
  else
    (stepDone, [Call.sqlite3_prepare_v2, Call.sqlite3_bind, Call.sqlite3_bind, Call.sqlite3_bind,
      Call.sqlite3_bind, Call.sqlite3_bind, Call.sqlite3_bind, Call.sqlite3_step,
      Call.sqlite3_finalize])

/-- The routine `Database::close`. -/
def close (s : Store) : Store × List Call :=
  if s.m_db ≠ none then (⟨none⟩, [Call.sqlite3_close]) else (s, [])

/-- A call of `init` (with what the engine answers) or of `close`. -/
inductive Op where
  | init (openOk : Bool) (handle : Option Nat) (execOk : Bool)
  | close
  deriving DecidableEq

/-- A sequence of `init` and `close` calls: the store afterwards and the flags the `init`
calls returned, in order. -/
def runOps (s : Store) : List Op → Store × List Bool
  | [] => (s, [])
  | Op.init openOk handle execOk :: rest =>
    let r := init s openOk handle execOk
    let t := runOps r.1 rest
    (t.1, r.2.1 :: t.2)
  | Op.close :: rest => runOps (close s).1 rest

end Database

/-! ## Address monitor (`src/profanity2/WebSocket.cpp`) -/

namespace WebSocket

/-- The callback reasons the monitor handles; a received fragment carries its bytes and
what `lws_is_final_fragment` answers. -/
inductive Reason where
  | LWS_CALLBACK_CLIENT_ESTABLISHED
  | LWS_CALLBACK_CLIENT_RECEIVE (data : List Char) (final : Bool)
  | LWS_CALLBACK_CLIENT_WRITEABLE
  | LWS_CALLBACK_CLIENT_CONNECTION_ERROR
  | LWS_CALLBACK_CLIENT_CLOSED
  | other
  deriving DecidableEq

/-- What the monitor does to the outside: requests to the network engine and notifications. -/
inductive Effect where
  | lws_callback_on_writable
  | lws_write (msg : List Char)
  | sendMessage (text : List Char)
  | lws_client_connect_via_info
  deriving DecidableEq

/-- The file-scope state of the monitor and its address queue: whether `g_instance` is
set, the accumulation buffer, the connection handle (`none` for `nullptr`) and the
pending addresses. -/
structure Globals where
  g_instance : Bool
  g_receivedData : List Char
  g_wsi : Option Nat
  m_addresses : List (List Char)
  deriving DecidableEq

/-- The literal `"\"method\":\"eth_subscription\""`. -/
def subscriptionKey : List Char := "\"method\":\"eth_subscription\"".toList

/-- The subscribe request written for an address. -/
def subMsg (addr : List Char) : List Char :=
  ("\x7b\"jsonrpc\":\"2.0\",\"id\":1,\"method\":\"eth_subscribe\"," ++
    "\"params\":[\"logs\",\x7b\"address\":\"").toList ++ addr ++ "\"\x7d]\x7d".toList

/-- The routine `websocket_callback`: the state afterwards and the effects, in order. -/
def websocket_callback (g : Globals) : Reason → Globals × List Effect
  | Reason.LWS_CALLBACK_CLIENT_ESTABLISHED => (g, [Effect.lws_callback_on_writable])
  | Reason.LWS_CALLBACK_CLIENT_RECEIVE data final =>
    if data ≠ [] then
      let buf := g.g_receivedData ++ data
      if final then
        let sent :=
          if g.g_instance ∧ Ethereum.find buf subscriptionKey 0 ≠ none then
            [Effect.sendMessage ("WSS Update: ".toList ++ buf)]
          else []
        (⟨g.g_instance, [], g.g_wsi, g.m_addresses⟩, sent)
      else (⟨g.g_instance, buf, g.g_wsi, g.m_addresses⟩, [])
    else (g, [])
  | Reason.LWS_CALLBACK_CLIENT_WRITEABLE =>
    if g.g_instance then
      (⟨g.g_instance, g.g_receivedData, g.g_wsi, []⟩,
        g.m_addresses.map fun addr => Effect.lws_write (subMsg addr))
    else (g, [])
  | Reason.LWS_CALLBACK_CLIENT_CONNECTION_ERROR => (g, [])
  | Reason.LWS_CALLBACK_CLIENT_CLOSED =>
    (⟨g.g_instance, g.g_receivedData, none, g.m_addresses⟩, [])
  | Reason.other => (g, [])

/-- The callbacks of a sequence of events, one after the other. -/
def runCallbacks (g : Globals) : List Reason → Globals × List Effect
  | [] => (g, [])
  | reason :: rest =>
    let r := websocket_callback g reason
    let t := runCallbacks r.1 rest
    (t.1, r.2 ++ t.2)

/-- One iteration of the service loop of `runLoop`, entered with `m_running` set:
`lws_service` delivers `events`, then `if (!g_wsi && m_running)` the connection is
initiated again, `connect` being the handle `lws_client_connect_via_info` returns. -/
def serviceIteration (g : Globals) (events : List Reason) (m_running : Bool)
    (connect : Option Nat) : Globals × List Effect :=
  let r := runCallbacks g events
  if r.1.g_wsi = none ∧ m_running then
    (⟨r.1.g_instance, r.1.g_receivedData, connect, r.1.m_addresses⟩,
      r.2 ++ [Effect.lws_client_connect_via_info])
  else r

/-- The complete messages of a sequence of fragments received with `buf` already
accumulated: each is the accumulated bytes up to and including a final fragment. -/
def completeMessages (buf : List Char) : List (List Char × Bool) → List (List Char)
  | [] => []
  | (data, final) :: rest =>
    if final then (buf ++ data) :: completeMessages [] rest
    else completeMessages (buf ++ data) rest

/-- A received fragment as a callback event. -/
def receive (fragment : List Char × Bool) : Reason :=
  Reason.LWS_CALLBACK_CLIENT_RECEIVE fragment.1 fragment.2

/-- The notifications called for by a sequence of complete messages: `WSS Update: ` followed
by the message, for each message that contains `"method":"eth_subscription"`. -/
def updatesFor (messages : List (List Char)) : List Effect :=
  (messages.filter fun m => decide (subscriptionKey <:+: m)).map
    fun m => Effect.sendMessage ("WSS Update: ".toList ++ m)

/-- The call `std::stoi(s)`: leading white space, an optional sign, then the longest run of
decimal digits; `none` stands for `std::invalid_argument` (no digit) and
`std::out_of_range` (the value does not fit an `int`). -/
def stoi (s : List Char) : Option Int :=
  let s1 := s.dropWhile Ethereum.isSpace
  let neg := s1.head? = some '-'
  let s2 := if s1.head? = some '-' ∨ s1.head? = some '+' then s1.tail else s1
  let digits := s2.takeWhile fun c => decide (48 ≤ c.toNat ∧ c.toNat ≤ 57)
  if digits = [] then none
  else
    let v : Int := digits.foldl (fun acc c => acc * 10 + ((c.toNat : Int) - 48)) 0
    let r : Int := if neg then -v else v
    if r < -2147483648 ∨ 2147483647 < r then none else some r

/-- The connection target parsed from the endpoint. -/
structure Target where
  useSSL : Bool
  host : List Char
  port : Int
  path : List Char
  deriving DecidableEq

/-- The second half of the URL parsing of `runLoop`, on the text after the scheme: the
split at the first `/` into host and path, then the split of the host at the first `:`;
`none` when `std::stoi` throws. -/
def parseHostPath (useSSL : Bool) (url : List Char) : Option Target :=
  let pathPos := Ethereum.find url ['/'] 0
  let host := match pathPos with
    | none => url
    | some p => url.take p
  let path := match pathPos with
    | none => ['/']
    | some p => url.drop p
  match Ethereum.find host [':'] 0 with
  | none => some ⟨useSSL, host, if useSSL then 443 else 80, path⟩
  | some q =>
    match stoi (host.drop (q + 1)) with
    | none => none
    | some port => some ⟨useSSL, host.take q, port, path⟩

/-- The URL parsing of `runLoop` (the block `// Parse WSS URL`): the scheme is recognised and
removed, then host, port and path are split. -/
def parseWssUrl (m_wssUrl : List Char) : Option Target :=
  let useSSL := decide (m_wssUrl.take 6 = "wss://".toList)
  let url :=
    if m_wssUrl.take 6 = "wss://".toList then m_wssUrl.drop 6
    else if m_wssUrl.take 5 = "ws://".toList then m_wssUrl.drop 5
    else m_wssUrl
  parseHostPath useSSL url

/-- The number a run of decimal digits denotes. -/
def decimalValue (digits : List Char) : Nat :=
  digits.foldl (fun acc c => acc * 10 + (c.toNat - 48)) 0

/-- The endpoint text `scheme://host[:port][/rest]`, with scheme `wss` when `tls` is set and
`ws` otherwise. -/
def endpoint (tls : Bool) (host : List Char) (port rest : Option (List Char)) : List Char :=
  (if tls then "wss://".toList else "ws://".toList) ++ host
    ++ port.elim [] (fun ds => ':' :: ds) ++ rest.elim [] (fun r => '/' :: r)

end WebSocket

namespace Ethereum

/-! ## Hashing: test vectors -/

/-- C1. The routine `keccak256` gives the published Keccak-256 digests (padding
`0x01 .. 0x80`, rate 136, little-endian lanes): `c5d2460186f7233c927e7db2dcc703c0`
`e500b653ca82273b7bfad8045d85a470` on the empty byte sequence and
`4e03657aea45a94fc7d47ba826c8d667` `c0d1e6e33a64a036ec44f58fa12d6c45` on the three bytes
of `abc`. -/
theorem keccak256_test_vectors :
    keccak256 [] =
      [0xc5, 0xd2, 0x46, 0x01, 0x86, 0xf7, 0x23, 0x3c, 0x92, 0x7e, 0x7d, 0xb2, 0xdc, 0xc7, 0x03, 0xc0,
       0xe5, 0x00, 0xb6, 0x53, 0xca, 0x82, 0x27, 0x3b, 0x7b, 0xfa, 0xd8, 0x04, 0x5d, 0x85, 0xa4, 0x70] ∧
    keccak256 [0x61, 0x62, 0x63] =
      [0x4e, 0x03, 0x65, 0x7a, 0xea, 0x45, 0xa9, 0x4f, 0xc7, 0xd4, 0x7b, 0xa8, 0x26, 0xc8, 0xd6, 0x67,
       0xc0, 0xd1, 0xe6, 0xe3, 0x3a, 0x64, 0xa0, 0x36, 0xec, 0x44, 0xf5, 0x8f, 0xa1, 0x2d, 0x6c, 0x45] := by
  decide!

/-! ## Minimal integer encoding: proofs -/

theorem beValue_cons (b : Nat) (bs : List Nat) :
    beValue (b :: bs) = b * 256 ^ bs.length + beValue bs := by
  unfold beValue
  suffices h : ∀ (l : List Nat) (a : Nat),
      l.foldl (fun acc b => acc * 256 + b) a
        = a * 256 ^ l.length + l.foldl (fun acc b => acc * 256 + b) 0 by
    simpa using h bs b
  intro l
  induction l with
  | nil => intro a; simp
  | cons x xs ih =>
    intro a
    simp only [List.foldl_cons, List.length_cons]
    rw [ih (a * 256 + x), ih (0 * 256 + x)]
    ring

theorem beValue_lt (bs : List Nat) (h : ∀ b ∈ bs, b < 256) : beValue bs < 256 ^ bs.length := by
  induction bs with
  | nil => simp [beValue]
  | cons x xs ih =>
    rw [beValue_cons, List.length_cons, pow_succ]
    have hx : x < 256 := h x (List.mem_cons_self _ _)
    have hxs := ih (fun b hb => h b (List.mem_cons_of_mem _ hb))
    have hpos : 0 < 256 ^ xs.length := Nat.pow_pos (by norm_num)
    nlinarith

theorem loop_beValue (fuel : Nat) : ∀ (value : Nat) (bytes : List Nat), value < 256 ^ fuel →
    beValue (uint64ToBytes.loop fuel value bytes) = value * 256 ^ bytes.length + beValue bytes := by
  induction fuel with
  | zero => intro value bytes h; simp at h; simp [uint64ToBytes.loop, h]
  | succ n ih =>
    intro value bytes h
    unfold uint64ToBytes.loop
    split
    · have h1 : value >>> 8 < 256 ^ n := by
        rw [Nat.shiftRight_eq_div_pow]
        rw [pow_succ] at h
        exact Nat.div_lt_of_lt_mul (by norm_num; omega)
      have h2 : value &&& 0xFF = value % 256 := Nat.and_pow_two_sub_one_eq_mod value 8
      have h3 : value >>> 8 = value / 256 := by simp [Nat.shiftRight_eq_div_pow]
      rw [ih _ _ h1, beValue_cons, List.length_cons, h2, h3, pow_succ]
      have h4 := Nat.div_add_mod value 256
      calc value / 256 * (256 ^ bytes.length * 256) + (value % 256 * 256 ^ bytes.length + beValue bytes)
          = (256 * (value / 256) + value % 256) * 256 ^ bytes.length + beValue bytes := by ring
        _ = value * 256 ^ bytes.length + beValue bytes := by rw [h4]
    · have : value = 0 := by omega
      simp [this]

theorem loop_length (fuel : Nat) : ∀ (value : Nat) (bytes : List Nat),
    (uint64ToBytes.loop fuel value bytes).length ≤ fuel + bytes.length := by
  induction fuel with
  | zero => intro value bytes; simp [uint64ToBytes.loop]
  | succ n ih =>
    intro value bytes
    unfold uint64ToBytes.loop
    split
    · have := ih (value >>> 8) ((value &&& 0xFF) :: bytes)
      simp only [List.length_cons] at this
      omega
    · omega

theorem loop_bytes (fuel : Nat) : ∀ (value : Nat) (bytes : List Nat), (∀ b ∈ bytes, b < 256) →
    ∀ b ∈ uint64ToBytes.loop fuel value bytes, b < 256 := by
  induction fuel with
  | zero => intro value bytes h; simpa [uint64ToBytes.loop] using h
  | succ n ih =>
    intro value bytes h
    unfold uint64ToBytes.loop
    split
    · apply ih
      intro b hb
      rcases List.mem_cons.mp hb with rfl | hb
      · rw [show value &&& 0xFF = value % 256 from Nat.and_pow_two_sub_one_eq_mod value 8]
        omega
      · exact h b hb
    · exact h

theorem loop_head (fuel : Nat) : ∀ (value : Nat) (bytes : List Nat), value < 256 ^ fuel →
    (0 < value ∨ bytes.head? ≠ some 0) → (uint64ToBytes.loop fuel value bytes).head? ≠ some 0 := by
  induction fuel with
  | zero =>
    intro value bytes h hor
    simp at h
    simpa [uint64ToBytes.loop, h] using hor
  | succ n ih =>
    intro value bytes h hor
    unfold uint64ToBytes.loop
    have h2 : value &&& 0xFF = value % 256 := Nat.and_pow_two_sub_one_eq_mod value 8
    have h3 : value >>> 8 = value / 256 := by simp [Nat.shiftRight_eq_div_pow]
    split
    · rename_i hpos
      rw [h2, h3]
      apply ih
      · rw [pow_succ] at h
        exact Nat.div_lt_of_lt_mul (by omega)
      · by_cases hz : value % 256 = 0
        · left; omega
        · right; simpa using hz
    · rcases hor with hor | hor
      · omega
      · exact hor

theorem uint64ToBytes_minimalBE (v : Nat) (hv : v < 2 ^ 64) : MinimalBE (uint64ToBytes v) v := by
  have hv8 : v < 256 ^ 8 := by norm_num at hv ⊢; exact hv
  unfold uint64ToBytes
  split
  · subst v; simp [MinimalBE, beValue]
  · refine ⟨loop_bytes 8 v [] (by simp), ?_, loop_head 8 v [] hv8 (Or.inl (by omega))⟩
    rw [loop_beValue 8 v [] hv8]
    simp [beValue]

theorem uint64ToBytes_length_le (v : Nat) : (uint64ToBytes v).length ≤ 8 := by
  unfold uint64ToBytes
  split
  · simp
  · simpa using loop_length 8 v []

theorem minimalBE_nil_iff (bs : List Nat) (n : Nat) (h : MinimalBE bs n) : bs = [] ↔ n = 0 := by
  obtain ⟨hb, hval, hhead⟩ := h
  constructor
  · rintro rfl; simpa [beValue] using hval.symm
  · intro hn
    cases bs with
    | nil => rfl
    | cons x xs =>
      exfalso
      rw [beValue_cons] at hval
      have hx : x ≠ 0 := by simpa using hhead
      have : 0 < x * 256 ^ xs.length := Nat.mul_pos (by omega) (Nat.pow_pos (by norm_num))
      omega

theorem minimalBE_length_le (bs : List Nat) (n : Nat) (h : MinimalBE bs n)
    (cs : List Nat) (hc : ∀ b ∈ cs, b < 256) (hcv : beValue cs = n) : bs.length ≤ cs.length := by
  obtain ⟨hb, hval, hhead⟩ := h
  cases bs with
  | nil => simp
  | cons x xs =>
    rw [beValue_cons] at hval
    have hx : 1 ≤ x := by
      have : x ≠ 0 := by simpa using hhead
      omega
    have h1 : 256 ^ xs.length ≤ n := by
      calc 256 ^ xs.length ≤ x * 256 ^ xs.length := Nat.le_mul_of_pos_left _ (by omega)
        _ ≤ n := by omega
    have h2 : n < 256 ^ cs.length := hcv ▸ beValue_lt cs hc
    have h3 : 256 ^ xs.length < 256 ^ cs.length := lt_of_le_of_lt h1 h2
    have h4 : xs.length < cs.length := (Nat.pow_lt_pow_iff_right (by norm_num)).mp h3
    simpa using h4

/-- C4. For every 64-bit value `v`, `uint64ToBytes v` is the shortest big-endian
representation of `v`: its items are bytes, read big-endian they give back `v`, there are
at most 8 of them, the first is not zero, no byte sequence denoting `v` is shorter, and
the output is empty exactly when `v = 0`; `0` gives no bytes and `256` gives `[0x01, 0x00]`. -/
theorem uint64ToBytes_shortest_big_endian (v : Nat) (hv : v < 2 ^ 64) :
    (∀ b ∈ uint64ToBytes v, b < 256) ∧
    beValue (uint64ToBytes v) = v ∧
    (uint64ToBytes v).length ≤ 8 ∧
    (∀ b, (uint64ToBytes v).head? = some b → b ≠ 0) ∧
    (∀ cs : List Nat, (∀ b ∈ cs, b < 256) → beValue cs = v →
      (uint64ToBytes v).length ≤ cs.length) ∧
    (uint64ToBytes v = [] ↔ v = 0) ∧
    uint64ToBytes 0 = [] ∧ uint64ToBytes 256 = [0x01, 0x00] := by
  have h := uint64ToBytes_minimalBE v hv
  refine ⟨h.1, h.2.1, uint64ToBytes_length_le v, ?_, ?_, minimalBE_nil_iff _ _ h, by decide,
    by decide⟩
  · intro b hb hz
    exact h.2.2 (hz ▸ hb)
  · intro cs hc hcv
    exact minimalBE_length_le _ _ h cs hc hcv

/-- C4, at `v = 20000000000` (the fallback gas price). -/
theorem uint64ToBytes_shortest_big_endian_witness :
    20000000000 < 2 ^ 64 ∧ uint64ToBytes 20000000000 = [0x04, 0xa8, 0x17, 0xc8, 0x00] ∧
    beValue (uint64ToBytes 20000000000) = 20000000000 :=
  ⟨by decide, by decide, (uint64ToBytes_shortest_big_endian 20000000000 (by decide)).2.1⟩

theorem beValue_inj_of_length_eq : ∀ (bs cs : List Nat), bs.length = cs.length →
    (∀ b ∈ bs, b < 256) → (∀ b ∈ cs, b < 256) → beValue bs = beValue cs → bs = cs := by
  intro bs
  induction bs with
  | nil => intro cs hlen _ _ _; exact (List.length_eq_zero.mp hlen.symm).symm
  | cons x xs ih =>
    intro cs hlen hb hc hv
    cases cs with
    | nil => simp at hlen
    | cons y ys =>
      have hlen2 : xs.length = ys.length := by simpa using hlen
      rw [beValue_cons, beValue_cons, hlen2] at hv
      have hxs := beValue_lt xs (fun b hm => hb b (List.mem_cons_of_mem _ hm))
      have hys := beValue_lt ys (fun b hm => hc b (List.mem_cons_of_mem _ hm))
      rw [hlen2] at hxs
      have hpos : 0 < 256 ^ ys.length := Nat.pow_pos (by norm_num)
      have hxy : x = y := by
        have h1 : (x * 256 ^ ys.length + beValue xs) / 256 ^ ys.length = x := by
          rw [Nat.add_comm, Nat.add_mul_div_right _ _ hpos, Nat.div_eq_of_lt hxs, Nat.zero_add]
        have h2 : (y * 256 ^ ys.length + beValue ys) / 256 ^ ys.length = y := by
          rw [Nat.add_comm, Nat.add_mul_div_right _ _ hpos, Nat.div_eq_of_lt hys, Nat.zero_add]
        rw [← h1, ← h2, hv]
      subst hxy
      have hrest : beValue xs = beValue ys := by omega
      rw [ih ys hlen2 (fun b hm => hb b (List.mem_cons_of_mem _ hm))
        (fun b hm => hc b (List.mem_cons_of_mem _ hm)) hrest]

theorem minimalBE_unique (n : Nat) (bs cs : List Nat) (hb : MinimalBE bs n) (hc : MinimalBE cs n) :
    bs = cs := by
  have h1 := minimalBE_length_le bs n hb cs hc.1 hc.2.1
  have h2 := minimalBE_length_le cs n hc bs hb.1 hb.2.1
  exact beValue_inj_of_length_eq bs cs (by omega) hb.1 hc.1 (hb.2.1.trans hc.2.1.symm)

/-! ## RLP: proofs -/

theorem payload_eq_flatten (items : List (List Nat)) :
    items.foldl (fun payload item => payload ++ rlpEncode item) []
      = (items.map rlpEncode).flatten := by
  suffices h : ∀ (l : List (List Nat)) (acc : List Nat),
      l.foldl (fun payload item => payload ++ rlpEncode item) acc
        = acc ++ (l.map rlpEncode).flatten by
    simpa using h items []
  intro l
  induction l with
  | nil => intro acc; simp
  | cons x xs ih => intro acc; simp [ih]

theorem single_byte_iff (d : List Nat) :
    (d.length = 1 ∧ rd d 0 < 0x80) ↔ ∃ b, d = [b] ∧ b < 0x80 := by
  constructor
  · rintro ⟨h1, h2⟩
    match d, h1 with
    | [b], _ => exact ⟨b, rfl, by simpa [rd] using h2⟩
  · rintro ⟨b, rfl, hb⟩
    exact ⟨rfl, by simpa [rd] using hb⟩

/-- C2. For every byte string `d` (of a length that fits a `size_t`), `rlpEncode d` is `d`
itself when `d` is a single byte below `0x80`; otherwise the byte `0x80 + |d|` followed by
`d` when `|d| ≤ 55`; otherwise the byte `0xb7 + k`, then the `k`-byte minimal big-endian
encoding of `|d|`, then `d`. The empty string encodes to `[0x80]` and a 56-byte string to
`0xb8, 0x38` followed by its bytes. -/
theorem rlpEncode_cases (d : List Nat) (hd : d.length < 2 ^ 64) :
    ((∃ b, d = [b] ∧ b < 0x80) → rlpEncode d = d) ∧
    (¬ (∃ b, d = [b] ∧ b < 0x80) → d.length ≤ 55 → rlpEncode d = (0x80 + d.length) :: d) ∧
    (¬ (∃ b, d = [b] ∧ b < 0x80) → 55 < d.length →
      ∃ lenBytes : List Nat, MinimalBE lenBytes d.length ∧
        rlpEncode d = (0xb7 + lenBytes.length) :: (lenBytes ++ d)) ∧
    rlpEncode [] = [0x80] ∧
    (d.length = 56 → rlpEncode d = 0xb8 :: 0x38 :: d) := by
  refine ⟨?_, ?_, ?_, by decide, ?_⟩
  · intro h
    unfold rlpEncode
    rw [if_pos ((single_byte_iff d).mpr h)]
  · intro h hle
    unfold rlpEncode
    rw [if_neg (fun hc => h ((single_byte_iff d).mp hc)), if_pos hle]
    have : (0x80 + d.length) % 256 = 0x80 + d.length := Nat.mod_eq_of_lt (by omega)
    simp [this]
  · intro h hgt
    refine ⟨uint64ToBytes d.length, uint64ToBytes_minimalBE _ hd, ?_⟩
    unfold rlpEncode
    rw [if_neg (fun hc => h ((single_byte_iff d).mp hc)), if_neg (by omega)]
    have hk := uint64ToBytes_length_le d.length
    have : (0xb7 + (uint64ToBytes d.length).length) % 256 = 0xb7 + (uint64ToBytes d.length).length :=
      Nat.mod_eq_of_lt (by omega)
    simp [this]
  · intro h56
    unfold rlpEncode
    have h1 : uint64ToBytes 56 = [0x38] := by decide
    rw [if_neg (by omega), if_neg (by omega), h56, h1]
    rfl

/-- C2, at the 56 bytes `7, 7, .., 7`. -/
theorem rlpEncode_cases_witness :
    (List.replicate 56 7).length < 2 ^ 64 ∧
    rlpEncode (List.replicate 56 7) = 0xb8 :: 0x38 :: List.replicate 56 7 :=
  ⟨by decide, (rlpEncode_cases (List.replicate 56 7) (by decide)).2.2.2.2 (by decide)⟩

/-- C3. For every list of byte strings (whose payload has a length that fits a `size_t`),
`rlpEncodeList` returns the prefix followed by the payload, the payload being the
encodings of the items concatenated in order, and the prefix the single byte
`0xc0 + |payload|` when `|payload| ≤ 55` and otherwise the byte `0xf7 + k` followed by the
`k`-byte minimal big-endian encoding of `|payload|`. Two empty strings encode to
`[0xc2, 0x80, 0x80]`. -/
theorem rlpEncodeList_cases (items : List (List Nat))
    (hp : ((items.map rlpEncode).flatten).length < 2 ^ 64) :
    (((items.map rlpEncode).flatten).length ≤ 55 →
      rlpEncodeList items
        = (0xc0 + ((items.map rlpEncode).flatten).length) :: (items.map rlpEncode).flatten) ∧
    (55 < ((items.map rlpEncode).flatten).length →
      ∃ lenBytes : List Nat, MinimalBE lenBytes ((items.map rlpEncode).flatten).length ∧
        rlpEncodeList items
          = (0xf7 + lenBytes.length) :: (lenBytes ++ (items.map rlpEncode).flatten)) ∧
    rlpEncodeList [[], []] = [0xc2, 0x80, 0x80] := by
  refine ⟨?_, ?_, by decide⟩
  · intro hle
    unfold rlpEncodeList
    simp only [payload_eq_flatten]
    rw [if_pos hle]
    have : (0xc0 + ((items.map rlpEncode).flatten).length) % 256
        = 0xc0 + ((items.map rlpEncode).flatten).length := Nat.mod_eq_of_lt (by omega)
    rw [this]
    rfl
  · intro hgt
    refine ⟨uint64ToBytes ((items.map rlpEncode).flatten).length, uint64ToBytes_minimalBE _ hp, ?_⟩
    unfold rlpEncodeList
    simp only [payload_eq_flatten]
    rw [if_neg (by omega)]
    have hk := uint64ToBytes_length_le ((items.map rlpEncode).flatten).length
    have : (0xf7 + (uint64ToBytes ((items.map rlpEncode).flatten).length).length) % 256
        = 0xf7 + (uint64ToBytes ((items.map rlpEncode).flatten).length).length :=
      Nat.mod_eq_of_lt (by omega)
    rw [this]
    rfl

/-- C3, at the list of the three byte strings `04 a8 17 c8 00`, `52 08` and the empty one. -/
theorem rlpEncodeList_cases_witness :
    (([[0x04, 0xa8, 0x17, 0xc8, 0x00], [0x52, 0x08], []].map rlpEncode).flatten).length < 2 ^ 64 ∧
    rlpEncodeList [[0x04, 0xa8, 0x17, 0xc8, 0x00], [0x52, 0x08], []]
      = [0xca, 0x85, 0x04, 0xa8, 0x17, 0xc8, 0x00, 0x82, 0x52, 0x08, 0x80] :=
  ⟨by decide,
   ((rlpEncodeList_cases [[0x04, 0xa8, 0x17, 0xc8, 0x00], [0x52, 0x08], []] (by decide)).1
      (by decide)).trans (by decide)⟩

/-! ## Signing: proofs -/

theorem keccak256_length (data : List Nat) : (keccak256 data).length = 32 := by
  simp [keccak256, squeeze]

theorem rlpEncodeList_ne_nil (items : List (List Nat)) : rlpEncodeList items ≠ [] := by
  unfold rlpEncodeList
  simp only
  split <;> simp

/-- C5. With the signer a function from a digest to failure or `(r, s, recid)`: for every
recipient text `toAddr` denoting the bytes `toBytes`, every `data` and all 64-bit `nonce`,
`gasPrice`, `gasLimit` and chain id, `signTransaction` applies the signer to the 32-byte
`keccak256 (rlpEncodeList [enc nonce, enc gasPrice, enc gasLimit, toBytes, [], data,
enc chainId, [], []])`, where `enc` is the minimal big-endian encoding, returns
`rlpEncodeList [enc nonce, enc gasPrice, enc gasLimit, toBytes, [], data, enc v, r, s]` when
the signer succeeds, and returns the empty byte sequence exactly when the signer fails. -/
theorem signTransaction_digest_and_result (lib : Secp256k1) (e : Engine) (toAddr : List Char)
    (toBytes data : List Nat) (nonce gasPrice gasLimit : Nat)
    (hto : addressToBytes toAddr = some toBytes)
    (hn : nonce < 2 ^ 64) (hp : gasPrice < 2 ^ 64) (hl : gasLimit < 2 ^ 64)
    (hc : e.m_chainId < 2 ^ 64) :
    ∃ (enc : Nat → List Nat) (digest : List Nat),
      MinimalBE (enc nonce) nonce ∧ MinimalBE (enc gasPrice) gasPrice ∧
      MinimalBE (enc gasLimit) gasLimit ∧ MinimalBE (enc e.m_chainId) e.m_chainId ∧
      digest = keccak256 (rlpEncodeList
        [enc nonce, enc gasPrice, enc gasLimit, toBytes, [], data, enc e.m_chainId, [], []]) ∧
      digest.length = 32 ∧
      (∀ r s recid, lib.sign digest e.m_privateKey = some (r, s, recid) →
        MinimalBE (enc ((e.m_chainId * 2 + 35 + recid % 256) % 2 ^ 64))
          ((e.m_chainId * 2 + 35 + recid % 256) % 2 ^ 64) ∧
        signTransaction lib e toAddr data nonce gasPrice gasLimit
          = some (rlpEncodeList [enc nonce, enc gasPrice, enc gasLimit, toBytes, [], data,
              enc ((e.m_chainId * 2 + 35 + recid % 256) % 2 ^ 64), r, s])) ∧
      (signTransaction lib e toAddr data nonce gasPrice gasLimit = some []
        ↔ lib.sign digest e.m_privateKey = none) := by
  refine ⟨uint64ToBytes, _, uint64ToBytes_minimalBE _ hn, uint64ToBytes_minimalBE _ hp,
    uint64ToBytes_minimalBE _ hl, uint64ToBytes_minimalBE _ hc, rfl, keccak256_length _, ?_, ?_⟩
  · intro r s recid hsign
    refine ⟨uint64ToBytes_minimalBE _ (Nat.mod_lt _ (by norm_num)), ?_⟩
    simp only [signTransaction, hto, signedTx, ecdsaSign, txItems, hsign]
  · simp only [signTransaction, hto, signedTx, ecdsaSign, txItems]
    cases hsign : lib.sign (keccak256 (rlpEncodeList
        [uint64ToBytes nonce, uint64ToBytes gasPrice, uint64ToBytes gasLimit, toBytes, [], data,
          uint64ToBytes e.m_chainId, [], []])) e.m_privateKey with
    | none => simp
    | some t =>
      obtain ⟨r, s, recid⟩ := t
      simp [rlpEncodeList_ne_nil]

/-- C5, at nonce 5, gas price 20 Gwei, gas limit 21000 and chain id 1, with a signer that
always succeeds. -/
theorem signTransaction_digest_and_result_witness :
    addressToBytes "0x00112233445566778899aabbccddeeff00112233".toList
      = some [0x00, 0x11, 0x22, 0x33, 0x44, 0x55, 0x66, 0x77, 0x88, 0x99, 0xaa, 0xbb, 0xcc, 0xdd,
          0xee, 0xff, 0x00, 0x11, 0x22, 0x33] ∧
    5 < 2 ^ 64 ∧ 20000000000 < 2 ^ 64 ∧ 21000 < 2 ^ 64 ∧ (engineWith 1 [1]).m_chainId < 2 ^ 64 ∧
    signTransaction (constSigner (List.replicate 32 1) (List.replicate 32 2) 0) (engineWith 1 [1])
      "0x00112233445566778899aabbccddeeff00112233".toList [] 5 20000000000 21000 ≠ some [] := by
  refine ⟨by decide, by decide, by decide, by decide, by decide, ?_⟩
  obtain ⟨enc, digest, -, -, -, -, -, -, -, hiff⟩ :=
    signTransaction_digest_and_result (constSigner (List.replicate 32 1) (List.replicate 32 2) 0)
      (engineWith 1 [1]) "0x00112233445566778899aabbccddeeff00112233".toList
      [0x00, 0x11, 0x22, 0x33, 0x44, 0x55, 0x66, 0x77, 0x88, 0x99, 0xaa, 0xbb, 0xcc, 0xdd,
        0xee, 0xff, 0x00, 0x11, 0x22, 0x33] [] 5 20000000000
      21000 (by decide) (by decide) (by decide) (by decide) (by decide)
  intro h
  have := hiff.mp h
  simp [constSigner] at this

/-- C6, the claim as stated fails: with chain id `2 ^ 63` and recovery id `0` the `v` item
of the signed transaction is the single byte `35`, which does not denote
`2 ^ 63 * 2 + 35 + 0`. -/
theorem signedTx_v_wraps :
    ∃ items, signedTx (constSigner (List.replicate 32 1) (List.replicate 32 2) 0)
        (engineWith (2 ^ 63) [1]) [] [] 0 0 21000 = some items ∧
      items.getD 6 [] = [35] ∧ ¬ MinimalBE (items.getD 6 []) (2 ^ 63 * 2 + 35 + 0) :=
  ⟨_, rfl, by decide, by decide⟩

/-- C6, amended. For every chain id and every recovery id in `{0, 1}` returned by the signer
such that `chainId * 2 + 35 + recid` fits 64 bits, the `v` item (item 6 of the nine) of the
signed transaction is the minimal big-endian encoding of the integer
`chainId * 2 + 35 + recid`; for chain id 1 it is the byte 37 when `recid = 0` and 38 when
`recid = 1`. -/
theorem signedTx_v_item (lib : Secp256k1) (e : Engine) (toBytes data : List Nat)
    (nonce gasPrice gasLimit : Nat) (r s : List Nat) (recid : Nat)
    (hsign : lib.sign (keccak256 (rlpEncodeList (txItems e toBytes data nonce gasPrice gasLimit)))
      e.m_privateKey = some (r, s, recid))
    (hrec : recid = 0 ∨ recid = 1) (hfit : e.m_chainId * 2 + 35 + recid < 2 ^ 64) :
    ∃ items, signedTx lib e toBytes data nonce gasPrice gasLimit = some items ∧
      items.length = 9 ∧
      MinimalBE (items.getD 6 []) (e.m_chainId * 2 + 35 + recid) ∧
      (e.m_chainId = 1 → recid = 0 → items.getD 6 [] = [37]) ∧
      (e.m_chainId = 1 → recid = 1 → items.getD 6 [] = [38]) := by
  have hr : recid % 256 = recid := Nat.mod_eq_of_lt (by omega)
  have hv : (e.m_chainId * 2 + 35 + recid) % 2 ^ 64 = e.m_chainId * 2 + 35 + recid :=
    Nat.mod_eq_of_lt hfit
  refine ⟨[uint64ToBytes nonce, uint64ToBytes gasPrice, uint64ToBytes gasLimit, toBytes, [], data,
      uint64ToBytes (e.m_chainId * 2 + 35 + recid), r, s],
    by simp only [signedTx, ecdsaSign, hsign, hr, hv], rfl, ?_, ?_, ?_⟩
  · exact uint64ToBytes_minimalBE _ hfit
  · intro h1 h0
    simp only [List.getD_cons_succ, List.getD_cons_zero, h1, h0]
    decide
  · intro h1 h0
    simp only [List.getD_cons_succ, List.getD_cons_zero, h1, h0]
    decide

/-- C6 amended, at chain id 1 with a signer that returns recovery id 1. -/
theorem signedTx_v_item_witness :
    (constSigner (List.replicate 32 1) (List.replicate 32 2) 1).sign
        (keccak256 (rlpEncodeList (txItems (engineWith 1 [1]) [] [] 0 0 21000)))
        (engineWith 1 [1]).m_privateKey = some (List.replicate 32 1, List.replicate 32 2, 1) ∧
    ((1 : Nat) = 0 ∨ (1 : Nat) = 1) ∧ (engineWith 1 [1]).m_chainId * 2 + 35 + 1 < 2 ^ 64 ∧
    ∃ items, signedTx (constSigner (List.replicate 32 1) (List.replicate 32 2) 1)
        (engineWith 1 [1]) [] [] 0 0 21000 = some items ∧ items.getD 6 [] = [38] := by
  refine ⟨rfl, by decide, by decide, ?_⟩
  obtain ⟨items, h, -, -, -, h38⟩ :=
    signedTx_v_item (constSigner (List.replicate 32 1) (List.replicate 32 2) 1) (engineWith 1 [1])
      [] [] 0 0 21000 (List.replicate 32 1) (List.replicate 32 2) 1 rfl (by decide) (by decide)
  exact ⟨items, h, h38 rfl rfl⟩

/-- C7, the code at a failing input: when the signer returns an `r` whose first byte is zero,
the `r` item (item 7 of the nine) of the signed transaction is that `r` unchanged, with its
leading zero byte, and likewise the `s` item (item 8); the integer items built by
`uint64ToBytes` have none. -/
theorem signedTx_r_s_keep_leading_zero :
    ∃ items, signedTx
        (constSigner (0 :: List.replicate 31 0xff) (0 :: 0 :: List.replicate 30 0xee) 0)
        (engineWith 1 [1]) [] [] 5 20000000000 21000 = some items ∧
      items.getD 7 [] = 0 :: List.replicate 31 0xff ∧ (items.getD 7 []).head? = some 0 ∧
      items.getD 8 [] = 0 :: 0 :: List.replicate 30 0xee ∧ (items.getD 8 []).head? = some 0 ∧
      items.getD 0 [] = [5] ∧ items.getD 6 [] = [37] :=
  ⟨_, rfl, by decide, by decide, by decide, by decide, by decide, by decide⟩

/-! ## Call data: proofs -/

theorem hexDigit_lt (c : Char) (v : Nat) (h : hexDigit c = some v) : v < 16 := by
  unfold hexDigit at h
  split at h
  · simp at h; omega
  · split at h
    · simp at h; omega
    · split at h
      · simp at h; omega
      · simp at h

theorem isHexDigit_toNat (c : Char) (h : isHexDigit c = true) :
    (48 ≤ c.toNat ∧ c.toNat ≤ 57) ∨ (97 ≤ c.toNat ∧ c.toNat ≤ 102) ∨
      (65 ≤ c.toNat ∧ c.toNat ≤ 70) := by
  unfold isHexDigit hexDigit at h
  by_contra hcon
  simp only [not_or] at hcon
  rw [if_neg hcon.1, if_neg hcon.2.1, if_neg hcon.2.2] at h
  simp at h

theorem isHexDigit_not_space (c : Char) (h : isHexDigit c = true) : isSpace c = false := by
  have := isHexDigit_toNat c h
  simp only [isSpace, Bool.or_eq_false_iff, Bool.and_eq_false_iff, decide_eq_false_iff_not]
  omega

theorem isHexDigit_ne (c d : Char) (h : isHexDigit c = true) (hd : isHexDigit d = false) :
    c ≠ d := by
  rintro rfl
  simp [h] at hd

theorem stoul16_pair (a b : Char) (ha : isHexDigit a = true) (hb : isHexDigit b = true) :
    stoul16 [a, b] = some (16 * (hexDigit a).getD 0 + (hexDigit b).getD 0) := by
  have hsa := isHexDigit_not_space a ha
  have h1 : a ≠ '-' := isHexDigit_ne a '-' ha (by decide)
  have h2 : a ≠ '+' := isHexDigit_ne a '+' ha (by decide)
  have h3 : b ≠ 'x' := isHexDigit_ne b 'x' hb (by decide)
  have h4 : b ≠ 'X' := isHexDigit_ne b 'X' hb (by decide)
  obtain ⟨va, hva⟩ := Option.isSome_iff_exists.mp ha
  obtain ⟨vb, hvb⟩ := Option.isSome_iff_exists.mp hb
  have hla := hexDigit_lt a va hva
  have hlb := hexDigit_lt b vb hvb
  simp [stoul16, List.dropWhile, List.takeWhile, hsa, h1, h2, h3, h4, ha, hb, hva, hvb]
  omega

theorem hexToBytes_loop_digits : ∀ (n : Nat) (l : List Char), l.length = 2 * n →
    (∀ c ∈ l, isHexDigit c = true) →
    hexToBytes.loop l = some (bytesOfHex l) ∧ (bytesOfHex l).length = n := by
  intro n
  induction n with
  | zero =>
    intro l hl _
    have : l = [] := List.length_eq_zero.mp (by simpa using hl)
    subst this
    simp [hexToBytes.loop, bytesOfHex]
  | succ k ih =>
    intro l hl hd
    match l, hl, hd with
    | a :: b :: rest, hl, hd =>
      have ha : isHexDigit a = true := hd a (by simp)
      have hb : isHexDigit b = true := hd b (by simp)
      have hrest := ih rest (by simp at hl; omega) (fun c hc => hd c (by simp [hc]))
      obtain ⟨va, hva⟩ := Option.isSome_iff_exists.mp ha
      obtain ⟨vb, hvb⟩ := Option.isSome_iff_exists.mp hb
      have hla := hexDigit_lt a va hva
      have hlb := hexDigit_lt b vb hvb
      have hmod : (16 * va + vb) % 256 = 16 * va + vb := Nat.mod_eq_of_lt (by omega)
      simp [hexToBytes.loop, bytesOfHex, stoul16_pair a b ha hb, hrest.1, hrest.2, hva, hvb, hmod]

theorem hexToBytes_prefixed (pre digits : List Char) (n : Nat)
    (hpre : pre = [] ∨ pre = ['0', 'x'] ∨ pre = ['0', 'X'])
    (hlen : digits.length = 2 * n) (hd : ∀ c ∈ digits, isHexDigit c = true) :
    hexToBytes (pre ++ digits) = some (bytesOfHex digits) ∧ (bytesOfHex digits).length = n := by
  have hloop := hexToBytes_loop_digits n digits hlen hd
  refine ⟨?_, hloop.2⟩
  rcases hpre with rfl | rfl | rfl
  · unfold hexToBytes
    have hno : ¬ (([] ++ digits).take 2 = ['0', 'x'] ∨ ([] ++ digits).take 2 = ['0', 'X']) := by
      match digits, hd with
      | [], _ => simp
      | [a], _ => simp
      | a :: b :: rest, hd =>
        have hb : isHexDigit b = true := hd b (by simp)
        have h3 : b ≠ 'x' := isHexDigit_ne b 'x' hb (by decide)
        have h4 : b ≠ 'X' := isHexDigit_ne b 'X' hb (by decide)
        simp [h3, h4]
    simp only [if_neg hno]
    simp [hloop.1]
  · simpa [hexToBytes] using hloop.1
  · simpa [hexToBytes] using hloop.1

theorem drop_take_segment (p m q : List Nat) (i n : Nat) (hi : p.length = i)
    (hn : m.length = n) : ((p ++ m ++ q).drop i).take n = m := by
  rw [List.append_assoc, List.drop_left' hi, List.take_left' hn]

theorem transferFrom_segments (a b : List Nat) (ha : a.length = 20) (hb : b.length = 20) :
    ([0x23, 0xb8, 0x72, 0xdd] ++ List.replicate 12 0 ++ a ++ List.replicate 12 0 ++ b
        ++ List.replicate 32 0).take 4 = [0x23, 0xb8, 0x72, 0xdd] ∧
    (([0x23, 0xb8, 0x72, 0xdd] ++ List.replicate 12 0 ++ a ++ List.replicate 12 0 ++ b
        ++ List.replicate 32 0).drop 4).take 12 = List.replicate 12 0 ∧
    (([0x23, 0xb8, 0x72, 0xdd] ++ List.replicate 12 0 ++ a ++ List.replicate 12 0 ++ b
        ++ List.replicate 32 0).drop 16).take 20 = a ∧
    (([0x23, 0xb8, 0x72, 0xdd] ++ List.replicate 12 0 ++ a ++ List.replicate 12 0 ++ b
        ++ List.replicate 32 0).drop 36).take 12 = List.replicate 12 0 ∧
    (([0x23, 0xb8, 0x72, 0xdd] ++ List.replicate 12 0 ++ a ++ List.replicate 12 0 ++ b
        ++ List.replicate 32 0).drop 48).take 20 = b ∧
    ([0x23, 0xb8, 0x72, 0xdd] ++ List.replicate 12 0 ++ a ++ List.replicate 12 0 ++ b
        ++ List.replicate 32 0).drop 68 = List.replicate 32 0 := by
  refine ⟨?_, ?_, ?_, ?_, ?_, ?_⟩
  · simp
  · simp
  · have h := drop_take_segment ([0x23, 0xb8, 0x72, 0xdd] ++ List.replicate 12 0) a
      (List.replicate 12 0 ++ b ++ List.replicate 32 0) 16 20 (by simp) ha
    simpa [List.append_assoc] using h
  · have h := drop_take_segment ([0x23, 0xb8, 0x72, 0xdd] ++ List.replicate 12 0 ++ a)
      (List.replicate 12 0) (b ++ List.replicate 32 0) 36 12 (by simp [ha]) (by simp)
    simpa [List.append_assoc] using h
  · have h := drop_take_segment
      ([0x23, 0xb8, 0x72, 0xdd] ++ List.replicate 12 0 ++ a ++ List.replicate 12 0) b
      (List.replicate 32 0) 48 20 (by simp [ha]) hb
    simpa [List.append_assoc] using h
  · exact List.drop_left' (by simp [ha, hb])

/-- C8. For every pair of addresses given as 40 hexadecimal digits, each with or without a
`0x` prefix, `buildTransferFromData` returns exactly 100 bytes: the selector `23 b8 72 dd`,
12 zero bytes, the 20 bytes the digits of the sender denote, 12 zero bytes, the 20 bytes
the digits of the recipient denote, and 32 zero bytes for the amount. -/
theorem buildTransferFromData_layout (preF digitsF preT digitsT : List Char)
    (hpf : preF = [] ∨ preF = ['0', 'x'] ∨ preF = ['0', 'X'])
    (hpt : preT = [] ∨ preT = ['0', 'x'] ∨ preT = ['0', 'X'])
    (hlf : digitsF.length = 40) (hdf : ∀ c ∈ digitsF, isHexDigit c = true)
    (hlt : digitsT.length = 40) (hdt : ∀ c ∈ digitsT, isHexDigit c = true) :
    ∃ out, buildTransferFromData (preF ++ digitsF) (preT ++ digitsT) = some out ∧
      out.length = 100 ∧
      (bytesOfHex digitsF).length = 20 ∧ (bytesOfHex digitsT).length = 20 ∧
      out.take 4 = [0x23, 0xb8, 0x72, 0xdd] ∧
      (out.drop 4).take 12 = List.replicate 12 0 ∧
      (out.drop 16).take 20 = bytesOfHex digitsF ∧
      (out.drop 36).take 12 = List.replicate 12 0 ∧
      (out.drop 48).take 20 = bytesOfHex digitsT ∧
      out.drop 68 = List.replicate 32 0 := by
  obtain ⟨hF, hFl⟩ := hexToBytes_prefixed preF digitsF 20 hpf hlf hdf
  obtain ⟨hT, hTl⟩ := hexToBytes_prefixed preT digitsT 20 hpt hlt hdt
  refine ⟨[0x23, 0xb8, 0x72, 0xdd] ++ List.replicate 12 0 ++ bytesOfHex digitsF
      ++ List.replicate 12 0 ++ bytesOfHex digitsT ++ List.replicate 32 0, ?_, ?_, hFl, hTl, ?_⟩
  · simp [buildTransferFromData, addressToBytes, hF, hT, padTo32, hFl, hTl]
  · simp [hFl, hTl]
  · exact transferFrom_segments _ _ hFl hTl

/-- C8, at a sender without prefix and a recipient with the `0x` prefix. -/
theorem buildTransferFromData_layout_witness :
    (([] : List Char) = [] ∨ ([] : List Char) = ['0', 'x'] ∨ ([] : List Char) = ['0', 'X']) ∧
    (['0', 'x'] = ([] : List Char) ∨ ['0', 'x'] = ['0', 'x'] ∨ ['0', 'x'] = ['0', 'X']) ∧
    "00112233445566778899aAbBcCdDeEfF00112233".toList.length = 40 ∧
    (∀ c ∈ "00112233445566778899aAbBcCdDeEfF00112233".toList, isHexDigit c = true) ∧
    "ffffffffffffffffffffffffffffffffffffff01".toList.length = 40 ∧
    (∀ c ∈ "ffffffffffffffffffffffffffffffffffffff01".toList, isHexDigit c = true) ∧
    ∃ out, buildTransferFromData ([] ++ "00112233445566778899aAbBcCdDeEfF00112233".toList)
        (['0', 'x'] ++ "ffffffffffffffffffffffffffffffffffffff01".toList) = some out ∧
      out.length = 100 ∧
      (out.drop 16).take 20 = [0x00, 0x11, 0x22, 0x33, 0x44, 0x55, 0x66, 0x77, 0x88, 0x99,
        0xaa, 0xbb, 0xcc, 0xdd, 0xee, 0xff, 0x00, 0x11, 0x22, 0x33] := by
  refine ⟨by decide, by decide, by decide, by decide, by decide, by decide, ?_⟩
  obtain ⟨out, h, hlen, -, -, -, -, hfrom, -⟩ :=
    buildTransferFromData_layout [] "00112233445566778899aAbBcCdDeEfF00112233".toList
      ['0', 'x'] "ffffffffffffffffffffffffffffffffffffff01".toList
      (by decide) (by decide) (by decide) (by decide) (by decide) (by decide)
  exact ⟨out, h, hlen, hfrom.trans (by decide)⟩

/-! ## JSON-RPC responses: proofs -/

theorem findFrom_first (pat : List Char) : ∀ (n : Nat) (s : List Char) (i : Nat),
    n ≤ s.length → (∀ k, k < n → ¬ pat <+: s.drop k) → pat <+: s.drop n →
    findFrom pat s i = some (i + n) := by
  intro n
  induction n with
  | zero =>
    intro s i _ _ hat
    cases s with
    | nil =>
      have : pat = [] := List.prefix_nil.mp (by simpa using hat)
      simp [findFrom, this]
    | cons c cs =>
      have : pat.isPrefixOf (c :: cs) = true := List.isPrefixOf_iff_prefix.mpr (by simpa using hat)
      simp [findFrom, this]
  | succ m ih =>
    intro s i hlen hbefore hat
    cases s with
    | nil => simp at hlen
    | cons c cs =>
      have h0 : pat.isPrefixOf (c :: cs) = false :=
        Bool.eq_false_iff.mpr (fun hp =>
          hbefore 0 (by omega) (by simpa using List.isPrefixOf_iff_prefix.mp hp))
      have hrec := ih cs (i + 1) (by simpa using hlen)
        (fun k hk => by simpa using hbefore (k + 1) (by omega)) (by simpa using hat)
      simp only [findFrom, h0]
      rw [hrec]
      simp; omega

theorem findFrom_none (pat : List Char) : ∀ (s : List Char) (i : Nat),
    ¬ pat <:+: s → findFrom pat s i = none := by
  intro s
  induction s with
  | nil =>
    intro i h
    have : pat ≠ [] := by rintro rfl; exact h List.nil_infix
    simp [findFrom, this]
  | cons c cs ih =>
    intro i h
    have h0 : pat.isPrefixOf (c :: cs) = false :=
      Bool.eq_false_iff.mpr (fun hp => h (List.isPrefixOf_iff_prefix.mp hp).isInfix)
    have h1 : ¬ pat <:+: cs := fun hi => h (hi.trans (List.suffix_cons c cs).isInfix)
    simp [findFrom, h0, ih (i + 1) h1]

theorem findFrom_quote (mid rest : List Char) (i : Nat) (hmid : '"' ∉ mid) :
    findFrom ['"'] (mid ++ '"' :: rest) i = some (i + mid.length) := by
  induction mid generalizing i with
  | nil => simp [findFrom, List.isPrefixOf]
  | cons c cs ih =>
    have hc : c ≠ '"' := fun h => hmid (by simp [h])
    have hcs : '"' ∉ cs := fun h => hmid (by simp [h])
    have h0 : ['"'].isPrefixOf (c :: (cs ++ '"' :: rest)) = false := by
      simp [List.isPrefixOf, Ne.symm hc]
    rw [List.cons_append, findFrom, if_neg (by simp [h0]), ih (i + 1) hcs, List.length_cons]
    congr 1
    omega

theorem findFrom_no_quote (tail : List Char) (i : Nat) (h : '"' ∉ tail) :
    findFrom ['"'] tail i = none :=
  findFrom_none _ _ _ (fun hi => h (hi.subset (by simp)))

theorem findFrom_quote_some : ∀ (s : List Char) (j i : Nat), findFrom ['"'] s j = some i →
    j ≤ i ∧ '"' ∉ s.take (i - j) := by
  intro s
  induction s with
  | nil => intro j i h; simp [findFrom] at h
  | cons c cs ih =>
    intro j i h
    rw [findFrom] at h
    split at h
    · have : j = i := by simpa using h
      subst this
      simp
    · rename_i hnp
      have hc : c ≠ '"' := by
        rintro rfl
        exact hnp (by simp [List.isPrefixOf])
      obtain ⟨hle, hnot⟩ := ih (j + 1) i h
      refine ⟨by omega, ?_⟩
      have : i - j = (i - (j + 1)) + 1 := by omega
      rw [this, List.take_succ_cons]
      intro hm
      rcases List.mem_cons.mp hm with h1 | h1
      · exact hc h1.symm
      · exact hnot h1

theorem first_occurrence (pat s : List Char) (h : pat <:+: s) :
    ∃ pre tail : List Char, s = pre ++ pat ++ tail ∧
      ∀ k, k < pre.length → ¬ pat <+: s.drop k := by
  classical
  obtain ⟨a, b, hab⟩ := h
  have hex : ∃ k, k ≤ s.length ∧ pat <+: s.drop k := by
    refine ⟨a.length, by rw [← hab]; simp, ?_⟩
    rw [← hab, List.append_assoc, List.drop_left]
    exact List.prefix_append _ _
  obtain ⟨hk0, tail, htail⟩ := Nat.find_spec hex
  refine ⟨s.take (Nat.find hex), tail, ?_, ?_⟩
  · rw [List.append_assoc, htail, List.take_append_drop]
  · intro k hk hp
    have hlt : k < Nat.find hex := by
      rw [List.length_take] at hk
      omega
    exact Nat.find_min hex hlt ⟨by omega, hp⟩

/-- C9. For every response text: when the literal `"result":"0x` does not occur, or no
double quote follows its first occurrence, `extractTxHashFromResponse` returns the empty
string; otherwise it returns `0x` followed by exactly the characters between the end of
that first occurrence and the next double quote. So every non-empty result starts with `0x`
and contains no double quote. -/
theorem extractTxHashFromResponse_cases (response : List Char) :
    (¬ resultKey <:+: response → extractTxHashFromResponse response = []) ∧
    (∀ pre tail : List Char, response = pre ++ resultKey ++ tail →
      (∀ k, k < pre.length → ¬ resultKey <+: response.drop k) → '"' ∉ tail →
      extractTxHashFromResponse response = []) ∧
    (∀ pre mid rest : List Char, response = pre ++ resultKey ++ mid ++ '"' :: rest →
      (∀ k, k < pre.length → ¬ resultKey <+: response.drop k) → '"' ∉ mid →
      extractTxHashFromResponse response = '0' :: 'x' :: mid) ∧
    (extractTxHashFromResponse response ≠ [] →
      ['0', 'x'] <+: extractTxHashFromResponse response ∧
      '"' ∉ extractTxHashFromResponse response) ∧
    (resultKey <:+: response → ∃ pre tail : List Char, response = pre ++ resultKey ++ tail ∧
      ∀ k, k < pre.length → ¬ resultKey <+: response.drop k) := by
  have hkey : resultKey.length = 12 := rfl
  have hfirst : ∀ pre tail : List Char, response = pre ++ resultKey ++ tail →
      (∀ k, k < pre.length → ¬ resultKey <+: response.drop k) →
      find response resultKey 0 = some pre.length ∧
        response.drop (pre.length + 12) = tail ∧ ¬ pre.length + 12 > response.length := by
    intro pre tail hresp hbefore
    have hat : resultKey <+: response.drop pre.length := by
      rw [hresp, List.append_assoc, List.drop_left]
      exact List.prefix_append _ _
    have hlen : pre.length + 12 ≤ response.length := by
      rw [hresp]; simp [hkey]
    refine ⟨?_, ?_, by omega⟩
    · have := findFrom_first resultKey pre.length response 0 (by omega) hbefore hat
      simpa [find] using this
    · rw [hresp]
      exact List.drop_left' (by simp [hkey])
  refine ⟨?_, ?_, ?_, ?_, first_occurrence resultKey response⟩
  · intro hno
    simp [extractTxHashFromResponse, find, findFrom_none resultKey response 0 hno]
  · intro pre tail hresp hbefore hq
    obtain ⟨h1, h2, h3⟩ := hfirst pre tail hresp hbefore
    simp only [extractTxHashFromResponse, h1]
    simp only [find, if_neg h3, h2, findFrom_no_quote tail _ hq]
  · intro pre mid rest hresp hbefore hq
    obtain ⟨h1, h2, h3⟩ := hfirst pre (mid ++ '"' :: rest)
      (by rw [hresp]; simp [List.append_assoc]) hbefore
    simp only [extractTxHashFromResponse, h1]
    simp only [find, if_neg h3, h2, findFrom_quote mid rest _ hq, substrToQuote]
    simp
  · intro hne
    unfold extractTxHashFromResponse at hne ⊢
    cases hp : find response resultKey 0 with
    | none => simp [hp] at hne
    | some p =>
      simp only [hp] at hne ⊢
      cases hq : find response ['"'] (p + 12) with
      | none => simp [hq] at hne
      | some i =>
        simp only [hq, substrToQuote]
        refine ⟨List.prefix_append _ _, ?_⟩
        unfold find at hq
        split at hq
        · simp at hq
        · have := (findFrom_quote_some _ _ _ hq).2
          intro hm
          rcases List.mem_append.mp hm with h1 | h1
          · revert h1; decide
          · exact this h1

theorem getGasPrice_fallback (rpcCall : List Char → List Char → List Char)
    (h : ¬ resultKey <:+: rpcCall "eth_gasPrice".toList "[]".toList) :
    getGasPrice rpcCall = some 20000000000 := by
  have hf : find (rpcCall "eth_gasPrice".toList "[]".toList) resultKey 0 = none := by
    unfold find
    rw [if_neg (by omega), List.drop_zero, findFrom_none resultKey _ 0 h]
  unfold getGasPrice
  simp only [hf]

/-- C10, the code at failing inputs: on a body whose `"result":"0x` is followed by no
hexadecimal digit, or by seventeen of them, `getGasPrice` does not return the fallback
`20000000000`: `std::stoull` throws. On the empty text of a failed call it returns the
fallback. -/
theorem getGasPrice_throws_on_bad_hex :
    getGasPrice (fun _ _ => "\x7b\"jsonrpc\":\"2.0\",\"id\":1,\"result\":\"0x\"\x7d".toList)
      = none ∧
    getGasPrice (fun _ _ =>
      "\x7b\"jsonrpc\":\"2.0\",\"id\":1,\"result\":\"0x10000000000000000\"\x7d".toList) = none ∧
    getGasPrice (fun _ _ => []) = some 20000000000 := by
  decide

/-! ## Substring search: proofs -/

theorem find_ne_none_iff (s pat : List Char) : find s pat 0 ≠ none ↔ pat <:+: s := by
  constructor
  · intro h
    by_contra hno
    exact h (by simp [find, findFrom_none pat s 0 hno])
  · intro h
    obtain ⟨pre, tail, hs, hfirst⟩ := first_occurrence pat s h
    have hat : pat <+: s.drop pre.length := by
      rw [hs, List.append_assoc, List.drop_left]
      exact List.prefix_append _ _
    have hlen : pre.length ≤ s.length := by rw [hs]; simp
    have := findFrom_first pat pre.length s 0 hlen hfirst hat
    simp [find, this]

/-! ## Confirmation polling: proofs -/

theorem waitForConfirmation_loop_true (receipt : Nat → List Char) : ∀ (left i : Nat),
    (waitForConfirmation.loop receipt left i).1 = true →
      i < (waitForConfirmation.loop receipt left i).2 ∧
      (waitForConfirmation.loop receipt left i).2 ≤ i + left ∧
      blockNumberKey <:+: receipt ((waitForConfirmation.loop receipt left i).2 - 1) ∧
      ∀ j, i ≤ j → j < (waitForConfirmation.loop receipt left i).2 - 1 →
        ¬ blockNumberKey <:+: receipt j := by
  intro left
  induction left with
  | zero => intro i h; simp [waitForConfirmation.loop] at h
  | succ n ih =>
    intro i h
    rw [waitForConfirmation.loop] at h ⊢
    split at h
    · rename_i hfound
      rw [if_pos hfound]
      refine ⟨by simp, by simp, ?_, ?_⟩
      · simpa using (find_ne_none_iff _ _).mp hfound
      · intro j h1 h2
        simp at h2
        omega
    · rename_i hnot
      rw [if_neg hnot]
      obtain ⟨h1, h2, h3, h4⟩ := ih (i + 1) h
      refine ⟨by omega, by omega, h3, ?_⟩
      intro j hj1 hj2
      by_cases hji : j = i
      · subst hji
        exact fun hc => hnot ((find_ne_none_iff _ _).mpr hc)
      · exact h4 j (by omega) hj2

theorem waitForConfirmation_loop_false (receipt : Nat → List Char) : ∀ (left i : Nat),
    (waitForConfirmation.loop receipt left i).1 = false →
      (waitForConfirmation.loop receipt left i).2 = i + left ∧
      ∀ j, i ≤ j → j < i + left → ¬ blockNumberKey <:+: receipt j := by
  intro left
  induction left with
  | zero => intro i _; simp [waitForConfirmation.loop]; intro j h1 h2; omega
  | succ n ih =>
    intro i h
    rw [waitForConfirmation.loop] at h ⊢
    split at h
    · simp at h
    · rename_i hnot
      rw [if_neg hnot]
      obtain ⟨h1, h2⟩ := ih (i + 1) h
      refine ⟨by omega, ?_⟩
      intro j hj1 hj2
      by_cases hji : j = i
      · subst hji
        exact fun hc => hnot ((find_ne_none_iff _ _).mpr hc)
      · exact h2 j (by omega) (by omega)

/-- C11. With the node answering its `k`-th call by `node k`: for every `maxWaitSeconds = n`,
`waitForConfirmation` returns `true` exactly when one of the first `n` responses contains
`"blockNumber":`, and then the number of polls issued is the position of the first such
response; otherwise it returns `false` after exactly `n` polls (none when `n ≤ 0`). With
`n = 3` and no `blockNumber` ever reported it returns `false` after exactly 3 polls. -/
theorem waitForConfirmation_polls (node : Nat → List Char → List Char → List Char)
    (txHash : List Char) (n : Int) :
    ((waitForConfirmation node txHash n).1 = true ↔
      ∃ k : Nat, (k : Int) < n ∧ blockNumberKey <:+:
        node k "eth_getTransactionReceipt".toList ("[\"".toList ++ txHash ++ "\"]".toList)) ∧
    ((waitForConfirmation node txHash n).1 = true →
      1 ≤ (waitForConfirmation node txHash n).2 ∧
      blockNumberKey <:+: node ((waitForConfirmation node txHash n).2 - 1)
        "eth_getTransactionReceipt".toList ("[\"".toList ++ txHash ++ "\"]".toList) ∧
      ∀ j, j < (waitForConfirmation node txHash n).2 - 1 → ¬ blockNumberKey <:+:
        node j "eth_getTransactionReceipt".toList ("[\"".toList ++ txHash ++ "\"]".toList)) ∧
    ((waitForConfirmation node txHash n).1 = false →
      (waitForConfirmation node txHash n).2 = n.toNat) ∧
    (n ≤ 0 → waitForConfirmation node txHash n = (false, 0)) ∧
    (n = 3 → (∀ k, ¬ blockNumberKey <:+:
        node k "eth_getTransactionReceipt".toList ("[\"".toList ++ txHash ++ "\"]".toList)) →
      waitForConfirmation node txHash n = (false, 3)) := by
  have htrue := waitForConfirmation_loop_true
    (fun i => node i "eth_getTransactionReceipt".toList ("[\"".toList ++ txHash ++ "\"]".toList))
    n.toNat 0
  have hfalse := waitForConfirmation_loop_false
    (fun i => node i "eth_getTransactionReceipt".toList ("[\"".toList ++ txHash ++ "\"]".toList))
    n.toNat 0
  refine ⟨⟨?_, ?_⟩, ?_, ?_, ?_, ?_⟩
  · intro h
    obtain ⟨h1, h2, h3, _⟩ := htrue h
    refine ⟨(waitForConfirmation node txHash n).2 - 1, ?_, h3⟩
    have : (waitForConfirmation node txHash n).2 ≤ n.toNat := by simpa using h2
    have h0 : 0 < (waitForConfirmation node txHash n).2 := h1
    omega
  · rintro ⟨k, hk, hin⟩
    by_contra hne
    have hf : (waitForConfirmation node txHash n).1 = false := by simpa using hne
    exact (hfalse hf).2 k (by omega) (by omega) hin
  · intro h
    obtain ⟨h1, _, h3, h4⟩ := htrue h
    exact ⟨h1, h3, fun j hj => h4 j (by omega) hj⟩
  · intro h
    simpa using (hfalse h).1
  · intro hn
    have : n.toNat = 0 := by omega
    simp [waitForConfirmation, this, waitForConfirmation.loop]
  · intro hn hnone
    subst hn
    have hf : (waitForConfirmation node txHash 3).1 = false := by
      by_contra hne
      have ht : (waitForConfirmation node txHash 3).1 = true := by simpa using hne
      exact hnone _ (htrue ht).2.2.1
    have h2 := (hfalse hf).1
    exact Prod.ext hf (by simpa using h2)

/-! ## Funding wallet and transfers: proofs -/

/-- C16, the claim as stated fails: after a `setFundingKey` that succeeded, a `setFundingKey`
whose derivation fails stores the new key and leaves the earlier funding address in place,
which is not empty. -/
theorem setFundingKey_keeps_earlier_address :
    ∃ e1 e2, setFundingKey oneKeyLib (engineWith 1 []) "0x01".toList = some e1 ∧
      e1.m_fundingAddress ≠ [] ∧
      hexToBytes "0x02".toList = some [2] ∧ oneKeyLib.pubkey [2] = none ∧
      setFundingKey oneKeyLib e1 "0x02".toList = some e2 ∧
      e2.m_privateKey = [2] ∧
      e2.m_fundingAddress = e1.m_fundingAddress ∧ e2.m_fundingAddress ≠ [] :=
  ⟨_, _, rfl, by simp [addressOfPubkey], by decide, by decide, rfl, rfl, rfl,
    by simp [addressOfPubkey]⟩

/-- C16, amended. For every engine state and every key for which derivation fails,
`setFundingKey` stores the key and leaves the funding address, the RPC URL and the chain id
as they were; so the funding address is unset (empty) afterwards when it was unset
before. -/
theorem setFundingKey_derivation_fails (lib : Secp256k1) (e : Engine) (privateKeyHex : List Char)
    (key : List Nat) (hkey : hexToBytes privateKeyHex = some key) (hfail : lib.pubkey key = none) :
    ∃ e', setFundingKey lib e privateKeyHex = some e' ∧
      e'.m_privateKey = key ∧
      e'.m_fundingAddress = e.m_fundingAddress ∧
      e'.m_rpcUrl = e.m_rpcUrl ∧ e'.m_chainId = e.m_chainId ∧
      (e.m_fundingAddress = [] → e'.m_fundingAddress = []) :=
  ⟨⟨e.m_rpcUrl, key, e.m_fundingAddress, e.m_chainId⟩,
    by simp only [setFundingKey, hkey, hfail], rfl, rfl, rfl, rfl, fun h => h⟩

/-- C16 amended, at the default engine and a key the library rejects. -/
theorem setFundingKey_derivation_fails_witness :
    hexToBytes "0x02".toList = some [2] ∧ oneKeyLib.pubkey [2] = none ∧
    ∃ e', setFundingKey oneKeyLib (engineWith 1 []) "0x02".toList = some e' ∧
      e'.m_fundingAddress = [] := by
  refine ⟨by decide, by decide, ?_⟩
  obtain ⟨e', h, -, -, -, -, hempty⟩ :=
    setFundingKey_derivation_fails oneKeyLib (engineWith 1 []) "0x02".toList [2] (by decide)
      (by decide)
  exact ⟨e', h, hempty rfl⟩

/-- C18. With the node and the signer the same functions in both runs: for every private key
text `k` that denotes a non-empty key whose derivation succeeds, every recipient and every
amount, `sendNativeTokenFrom k` hands the same raw signed transactions to
`sendRawTransaction` and returns the same text (or throws alike) as `sendNativeToken` on the
engine that `setFundingKey k` leaves, and it returns the engine as it found it: RPC URL,
chain id, funding key and funding address unchanged. The recovery id is taken to fit a byte,
as the library's is. -/
theorem sendNativeTokenFrom_refines (lib : Secp256k1)
    (node : List Char → List Char → List Char → List Char) (e : Engine)
    (k toAddress : List Char) (amountWei : Nat) (key pubkeyBytes : List Nat)
    (hkey : hexToBytes k = some key) (hne : key ≠ [])
    (hder : lib.pubkey key = some pubkeyBytes)
    (hrecid : ∀ digest r s recid, lib.sign digest key = some (r, s, recid) → recid < 256) :
    ∃ e1, setFundingKey lib e k = some e1 ∧
      (sendNativeTokenFrom lib node e k toAddress amountWei).map (fun o => (o.broadcast, o.txHash))
        = (sendNativeToken lib node e1 toAddress amountWei).map
            (fun o => (o.broadcast, o.txHash)) ∧
      (∀ o, sendNativeTokenFrom lib node e k toAddress amountWei = some o → o.engine = e) := by
  refine ⟨⟨e.m_rpcUrl, key, addressOfPubkey pubkeyBytes, e.m_chainId⟩,
    by simp only [setFundingKey, hkey, hder], ?_, ?_⟩
  · have hrpc : rpcCall node ⟨e.m_rpcUrl, key, addressOfPubkey pubkeyBytes, e.m_chainId⟩
        = rpcCall node e := rfl
    simp only [sendNativeTokenFrom, sendNativeToken, hkey, hder, hne, if_false, getNonce, hrpc,
      nativeTxItems, nativeSignedTx, ecdsaSign]
    cases parseNonce (rpcCall node e "eth_getTransactionCount".toList
        (nonceParams (addressOfPubkey pubkeyBytes))) with
    | none => rfl
    | some nonce =>
      simp only
      cases getGasPrice (rpcCall node e) with
      | none => rfl
      | some gasPrice =>
        simp only
        cases addressToBytes toAddress with
        | none => rfl
        | some toBytes =>
          simp only
          cases hs : lib.sign (keccak256 (rlpEncodeList
              [uint64ToBytes nonce, uint64ToBytes gasPrice, uint64ToBytes 21000, toBytes,
                uint64ToBytes amountWei, [], uint64ToBytes e.m_chainId, [], []])) key with
          | none => rfl
          | some t =>
            obtain ⟨r, s, recid⟩ := t
            have hr : recid % 256 = recid := Nat.mod_eq_of_lt (hrecid _ r s recid hs)
            simp only [hr, Option.map_some']
  · intro o ho
    simp only [sendNativeTokenFrom, hkey, hder] at ho
    revert ho
    cases parseNonce (rpcCall node e "eth_getTransactionCount".toList
        (nonceParams (addressOfPubkey pubkeyBytes))) with
    | none => simp
    | some nonce =>
      simp only
      cases getGasPrice (rpcCall node e) with
      | none => simp
      | some gasPrice =>
        simp only
        cases addressToBytes toAddress with
        | none => simp
        | some toBytes =>
          simp only
          cases lib.sign (keccak256 (rlpEncodeList
              (nativeTxItems e toBytes (uint64ToBytes amountWei) nonce gasPrice))) key with
          | none => simp only [Option.some.injEq]; rintro rfl; rfl
          | some t => simp only [Option.some.injEq]; rintro rfl; rfl

/-- C18, at the key `01`, a library that always derives and signs, and a node whose every
call fails. -/
theorem sendNativeTokenFrom_refines_witness :
    hexToBytes "0x01".toList = some [1] ∧ ([1] : List Nat) ≠ [] ∧
    (constWallet (List.replicate 65 4) (List.replicate 32 1) (List.replicate 32 2) 1).pubkey [1]
      = some (List.replicate 65 4) ∧
    (∀ digest r s recid,
      (constWallet (List.replicate 65 4) (List.replicate 32 1) (List.replicate 32 2) 1).sign
        digest [1] = some (r, s, recid) → recid < 256) ∧
    ∃ e1, setFundingKey
        (constWallet (List.replicate 65 4) (List.replicate 32 1) (List.replicate 32 2) 1)
        (engineWith 1 []) "0x01".toList = some e1 ∧
      (sendNativeTokenFrom
          (constWallet (List.replicate 65 4) (List.replicate 32 1) (List.replicate 32 2) 1)
          (fun _ _ _ => []) (engineWith 1 []) "0x01".toList
          "0x00112233445566778899aabbccddeeff00112233".toList 1000).map
            (fun o => (o.broadcast, o.txHash))
        = (sendNativeToken
            (constWallet (List.replicate 65 4) (List.replicate 32 1) (List.replicate 32 2) 1)
            (fun _ _ _ => []) e1
            "0x00112233445566778899aabbccddeeff00112233".toList 1000).map
              (fun o => (o.broadcast, o.txHash)) := by
  have hrec : ∀ (digest r s : List Nat) (recid : Nat),
      (constWallet (List.replicate 65 4) (List.replicate 32 1) (List.replicate 32 2) 1).sign
        digest [1] = some (r, s, recid) → recid < 256 := by
    intro digest r s recid h
    simp only [constWallet, Option.some.injEq, Prod.mk.injEq] at h
    omega
  refine ⟨by decide, by decide, rfl, hrec, ?_⟩
  obtain ⟨e1, h1, h2, -⟩ := sendNativeTokenFrom_refines
    (constWallet (List.replicate 65 4) (List.replicate 32 1) (List.replicate 32 2) 1)
    (fun _ _ _ => []) (engineWith 1 []) "0x01".toList
    "0x00112233445566778899aabbccddeeff00112233".toList 1000 [1] (List.replicate 65 4)
    (by decide) (by decide) rfl hrec
  exact ⟨e1, h1, h2⟩

/-! ## RLP: unique decoding -/

theorem uint64ToBytes_length_pos (n : Nat) (h0 : 0 < n) (hn : n < 2 ^ 64) :
    1 ≤ (uint64ToBytes n).length := by
  have hne : uint64ToBytes n ≠ [] := fun h =>
    absurd ((minimalBE_nil_iff _ _ (uint64ToBytes_minimalBE n hn)).mp h) (by omega)
  exact List.length_pos.mpr hne

theorem uint64ToBytes_inj (m n : Nat) (hm : m < 2 ^ 64) (hn : n < 2 ^ 64)
    (h : uint64ToBytes m = uint64ToBytes n) : m = n := by
  have h1 := (uint64ToBytes_minimalBE m hm).2.1
  have h2 := (uint64ToBytes_minimalBE n hn).2.1
  rw [← h1, ← h2, h]

theorem rlpEncode_shape (d : List Nat) (hd : d.length < 2 ^ 64) :
    (∃ x, d = [x] ∧ x < 0x80 ∧ rlpEncode d = [x]) ∨
    (d.length ≤ 55 ∧ rlpEncode d = (0x80 + d.length) :: d) ∨
    (55 < d.length ∧ 1 ≤ (uint64ToBytes d.length).length ∧ (uint64ToBytes d.length).length ≤ 8 ∧
      rlpEncode d = (0xb7 + (uint64ToBytes d.length).length) :: (uint64ToBytes d.length ++ d)) := by
  by_cases h1 : ∃ b, d = [b] ∧ b < 0x80
  · obtain ⟨x, rfl, hx⟩ := h1
    left
    exact ⟨x, rfl, hx, by simp [rlpEncode, rd, hx]⟩
  · have hn : ¬ (d.length = 1 ∧ rd d 0 < 0x80) := fun hc => h1 ((single_byte_iff d).mp hc)
    by_cases h2 : d.length ≤ 55
    · right; left
      refine ⟨h2, ?_⟩
      unfold rlpEncode
      rw [if_neg hn, if_pos h2, Nat.mod_eq_of_lt (by omega)]
      rfl
    · right; right
      have hk := uint64ToBytes_length_le d.length
      refine ⟨by omega, uint64ToBytes_length_pos _ (by omega) hd, hk, ?_⟩
      unfold rlpEncode
      rw [if_neg hn, if_neg h2]
      simp only
      rw [Nat.mod_eq_of_lt (by omega)]
      rfl

theorem rlpEncode_unique_decoding (a b s t : List Nat) (ha : a.length < 2 ^ 64)
    (hb : b.length < 2 ^ 64) (h : rlpEncode a ++ s = rlpEncode b ++ t) : a = b ∧ s = t := by
  rcases rlpEncode_shape a ha with ⟨x, rfl, hx, ea⟩ | ⟨la, ea⟩ | ⟨la, ka1, ka8, ea⟩ <;>
  rcases rlpEncode_shape b hb with ⟨y, rfl, hy, eb⟩ | ⟨lb, eb⟩ | ⟨lb, kb1, kb8, eb⟩ <;>
  rw [ea, eb] at h <;>
  simp only [List.cons_append, List.cons.injEq, List.nil_append] at h
  · exact ⟨by rw [h.1], h.2⟩
  · omega
  · omega
  · omega
  · obtain ⟨hlen, happ⟩ := h
    exact List.append_inj happ (by omega)
  · omega
  · omega
  · omega
  · obtain ⟨hk, happ⟩ := h
    rw [List.append_assoc, List.append_assoc] at happ
    obtain ⟨hL, hrest⟩ := List.append_inj happ (by omega)
    have hlen : a.length = b.length := uint64ToBytes_inj _ _ ha hb hL
    exact List.append_inj hrest hlen

theorem rlpEncode_ne_nil (d : List Nat) (hd : d.length < 2 ^ 64) : rlpEncode d ≠ [] := by
  rcases rlpEncode_shape d hd with ⟨x, rfl, _, e⟩ | ⟨_, e⟩ | ⟨_, _, _, e⟩ <;> rw [e] <;> simp

theorem payload_injective : ∀ (xs ys : List (List Nat)), (∀ x ∈ xs, x.length < 2 ^ 64) →
    (∀ y ∈ ys, y.length < 2 ^ 64) →
    (xs.map rlpEncode).flatten = (ys.map rlpEncode).flatten → xs = ys := by
  intro xs
  induction xs with
  | nil =>
    intro ys _ hy h
    cases ys with
    | nil => rfl
    | cons y ys =>
      exfalso
      have hne := rlpEncode_ne_nil y (hy y (List.mem_cons_self _ _))
      simp only [List.map_nil, List.flatten_nil, List.map_cons, List.flatten_cons] at h
      exact hne (List.append_eq_nil.mp h.symm).1
  | cons x xs ih =>
    intro ys hx hy h
    cases ys with
    | nil =>
      exfalso
      have hne := rlpEncode_ne_nil x (hx x (List.mem_cons_self _ _))
      simp only [List.map_nil, List.flatten_nil, List.map_cons, List.flatten_cons] at h
      exact hne (List.append_eq_nil.mp h).1
    | cons y ys =>
      simp only [List.map_cons, List.flatten_cons] at h
      obtain ⟨hxy, hrest⟩ := rlpEncode_unique_decoding x y _ _
        (hx x (List.mem_cons_self _ _)) (hy y (List.mem_cons_self _ _)) h
      rw [hxy, ih ys (fun z hz => hx z (List.mem_cons_of_mem _ hz))
        (fun z hz => hy z (List.mem_cons_of_mem _ hz)) hrest]

theorem rlpEncodeList_shape (items : List (List Nat))
    (hp : ((items.map rlpEncode).flatten).length < 2 ^ 64) :
    (((items.map rlpEncode).flatten).length ≤ 55 ∧
      rlpEncodeList items
        = (0xc0 + ((items.map rlpEncode).flatten).length) :: (items.map rlpEncode).flatten) ∨
    (55 < ((items.map rlpEncode).flatten).length ∧
      1 ≤ (uint64ToBytes ((items.map rlpEncode).flatten).length).length ∧
      (uint64ToBytes ((items.map rlpEncode).flatten).length).length ≤ 8 ∧
      rlpEncodeList items
        = (0xf7 + (uint64ToBytes ((items.map rlpEncode).flatten).length).length)
            :: (uint64ToBytes ((items.map rlpEncode).flatten).length
                ++ (items.map rlpEncode).flatten)) := by
  by_cases h : ((items.map rlpEncode).flatten).length ≤ 55
  · left
    refine ⟨h, ?_⟩
    unfold rlpEncodeList
    simp only [payload_eq_flatten]
    rw [if_pos h, Nat.mod_eq_of_lt (by omega)]
    rfl
  · right
    have hk := uint64ToBytes_length_le ((items.map rlpEncode).flatten).length
    refine ⟨by omega, uint64ToBytes_length_pos _ (by omega) hp, hk, ?_⟩
    unfold rlpEncodeList
    simp only [payload_eq_flatten]
    rw [if_neg h, Nat.mod_eq_of_lt (by omega)]
    rfl

/-- C19. The routine `rlpEncodeList` is injective: for all lists `xs` and `ys` of byte strings,
each string and each payload shorter than `2 ^ 64` bytes, equal encodings come from equal
lists. It rests on `rlpEncode` being injective and prefix-free: no encoding of a byte
string is a prefix of the encoding of another. -/
theorem rlpEncodeList_injective (xs ys : List (List Nat))
    (hx : ∀ x ∈ xs, x.length < 2 ^ 64) (hy : ∀ y ∈ ys, y.length < 2 ^ 64)
    (hpx : ((xs.map rlpEncode).flatten).length < 2 ^ 64)
    (hpy : ((ys.map rlpEncode).flatten).length < 2 ^ 64)
    (h : rlpEncodeList xs = rlpEncodeList ys) :
    xs = ys ∧
    (∀ a b : List Nat, a.length < 2 ^ 64 → b.length < 2 ^ 64 →
      rlpEncode a = rlpEncode b → a = b) ∧
    (∀ a b : List Nat, a.length < 2 ^ 64 → b.length < 2 ^ 64 →
      rlpEncode a <+: rlpEncode b → a = b) := by
  refine ⟨?_, ?_, ?_⟩
  · apply payload_injective xs ys hx hy
    rcases rlpEncodeList_shape xs hpx with ⟨lx, ex⟩ | ⟨lx, kx1, kx8, ex⟩ <;>
    rcases rlpEncodeList_shape ys hpy with ⟨ly, ey⟩ | ⟨ly, ky1, ky8, ey⟩ <;>
    rw [ex, ey] at h <;>
    simp only [List.cons.injEq] at h
    · exact h.2
    · omega
    · omega
    · exact (List.append_inj h.2 (by omega)).2
  · intro a b ha hb hab
    exact (rlpEncode_unique_decoding a b [] [] ha hb (by rw [hab])).1
  · intro a b ha hb hpre
    obtain ⟨t, ht⟩ := hpre
    exact (rlpEncode_unique_decoding a b t [] ha hb (by rw [ht, List.append_nil])).1

/-- C19, at the list of the byte strings `01`, `80` and the empty string. -/
theorem rlpEncodeList_injective_witness :
    (∀ x ∈ [[0x01], [0x80], []], x.length < 2 ^ 64) ∧
    (([[0x01], [0x80], []].map rlpEncode).flatten).length < 2 ^ 64 ∧
    rlpEncodeList [[0x01], [0x80], []] = [0xc4, 0x01, 0x81, 0x80, 0x80] ∧
    ([[0x01], [0x80], []] : List (List Nat)) = [[0x01], [0x80], []] :=
  ⟨by decide, by decide, by decide,
    (rlpEncodeList_injective [[0x01], [0x80], []] [[0x01], [0x80], []] (by decide) (by decide)
      (by decide) (by decide) rfl).1⟩

end Ethereum

namespace Telegram

/-- C15. With the transport either failing or returning a body: `sendMessage` returns `true`
if and only if the bot token and the chat id are both non-empty, the transport succeeds
(a handle is obtained and the request performed) and the body contains `"ok":true`; when
the token or the chat id is empty it returns `false` without issuing any request. -/
theorem sendMessage_true_iff (escape : List Char → List Char) (curlInit : Bool)
    (perform : List Char → List Char → Option (List Char)) (t : Config) (message : List Char) :
    ((sendMessage escape curlInit perform t message).1 = true ↔
      t.m_botToken ≠ [] ∧ t.m_chatId ≠ [] ∧ curlInit = true ∧
        ∃ body, perform (url t) (postData escape t message) = some body ∧ okKey <:+: body) ∧
    ((t.m_botToken = [] ∨ t.m_chatId = []) →
      sendMessage escape curlInit perform t message = (false, [])) := by
  refine ⟨?_, fun h => by simp [sendMessage, h]⟩
  unfold sendMessage
  by_cases hcfg : t.m_botToken = [] ∨ t.m_chatId = []
  · rw [if_pos hcfg]
    simp only [Bool.false_eq_true, false_iff]
    rintro ⟨h1, h2, -⟩
    rcases hcfg with h | h
    · exact h1 h
    · exact h2 h
  · rw [if_neg hcfg]
    simp only [not_or] at hcfg
    cases curlInit with
    | false => simp
    | true =>
      cases hp : perform (url t) (postData escape t message) with
      | none => simp
      | some body => simp [Ethereum.find_ne_none_iff, hcfg.1, hcfg.2]

end Telegram

namespace Database

theorem insertKeypair_uninitialized (prepareOk stepDone : Bool) :
    insertKeypair ⟨none⟩ prepareOk stepDone = (false, []) := by
  simp [insertKeypair]

/-- C14, the code at a failing input: an `init` whose `sqlite3_open` succeeds and whose
table creation fails returns `false` and leaves `m_db` set, so the `insertKeypair` that
follows does not return at once: it prepares and executes the statement (and returns
`true` when the engine reports `SQLITE_DONE`). The same happens when `sqlite3_open` itself
fails but leaves a handle, and a store whose `m_db` is unset does return `false` at once. -/
theorem insertKeypair_after_failed_init :
    runOps ⟨none⟩ [Op.init true (some 1) false] = (⟨some 1⟩, [false]) ∧
    insertKeypair (runOps ⟨none⟩ [Op.init true (some 1) false]).1 true true
      = (true, [Call.sqlite3_prepare_v2, Call.sqlite3_bind, Call.sqlite3_bind, Call.sqlite3_bind,
          Call.sqlite3_bind, Call.sqlite3_bind, Call.sqlite3_bind, Call.sqlite3_step,
          Call.sqlite3_finalize]) ∧
    runOps ⟨none⟩ [Op.init false (some 1) true] = (⟨some 1⟩, [false]) ∧
    (insertKeypair (runOps ⟨none⟩ [Op.init false (some 1) true]).1 true true).1 = true ∧
    insertKeypair (runOps ⟨none⟩ [Op.close]).1 true true = (false, []) := by
  decide

end Database

namespace WebSocket

/-- C13, the code at a failing input: with a live handle, the connection-error callback
leaves `g_wsi` set, and the service-loop iteration that delivers it, with the running flag
set, does not initiate a connection; the connection-closed callback clears `g_wsi`, and the
iteration that delivers it initiates the connection again. -/
theorem connection_error_keeps_handle :
    websocket_callback ⟨true, [], some 1, []⟩ Reason.LWS_CALLBACK_CLIENT_CONNECTION_ERROR
      = (⟨true, [], some 1, []⟩, []) ∧
    serviceIteration ⟨true, [], some 1, []⟩ [Reason.LWS_CALLBACK_CLIENT_CONNECTION_ERROR] true
      (some 2) = (⟨true, [], some 1, []⟩, []) ∧
    (websocket_callback ⟨true, [], some 1, []⟩ Reason.LWS_CALLBACK_CLIENT_CLOSED).1.g_wsi = none ∧
    serviceIteration ⟨true, [], some 1, []⟩ [Reason.LWS_CALLBACK_CLIENT_CLOSED] true (some 2)
      = (⟨true, [], some 2, []⟩, [Effect.lws_client_connect_via_info]) := by
  decide

theorem runCallbacks_instance (g : Globals) (events : List Reason) :
    (runCallbacks g events).1.g_instance = g.g_instance := by
  induction events generalizing g with
  | nil => rfl
  | cons reason rest ih =>
    rw [runCallbacks]
    simp only
    rw [ih]
    cases reason <;> simp only [websocket_callback] <;> (try split_ifs) <;> rfl

end WebSocket

namespace WebSocket

theorem runCallbacks_append (g : Globals) (a b : List Reason) :
    runCallbacks g (a ++ b)
      = ((runCallbacks (runCallbacks g a).1 b).1,
          (runCallbacks g a).2 ++ (runCallbacks (runCallbacks g a).1 b).2) := by
  induction a generalizing g with
  | nil => simp [runCallbacks]
  | cons x xs ih => simp [runCallbacks, ih, List.append_assoc]

theorem updatesFor_cons (m : List Char) (ms : List (List Char)) :
    updatesFor (m :: ms)
      = (if subscriptionKey <:+: m then [Effect.sendMessage ("WSS Update: ".toList ++ m)] else [])
          ++ updatesFor ms := by
  unfold updatesFor
  by_cases h : subscriptionKey <:+: m
  · simp [List.filter_cons, h]
  · simp [List.filter_cons, h]

theorem runCallbacks_receive (frags : List (List Char × Bool)) : ∀ (g : Globals),
    g.g_instance = true →
    (runCallbacks g (frags.map receive)).2
      = updatesFor (completeMessages g.g_receivedData
          (frags.filter fun f => decide (f.1 ≠ []))) := by
  induction frags with
  | nil => intro g _; simp [runCallbacks, completeMessages, updatesFor]
  | cons f rest ih =>
    intro g hinst
    obtain ⟨data, final⟩ := f
    rw [List.map_cons, runCallbacks]
    by_cases hd : data = []
    · subst hd
      have hcb : websocket_callback g (receive ([], final)) = (g, []) := by
        simp [receive, websocket_callback]
      simp only [hcb, List.nil_append]
      rw [ih g hinst]
      simp [List.filter_cons]
    · have hkeep : (((data, final) :: rest).filter fun f => decide (f.1 ≠ []))
          = (data, final) :: rest.filter fun f => decide (f.1 ≠ []) := by
        simp [List.filter_cons, hd]
      rw [hkeep, completeMessages]
      cases final with
      | true =>
        have hcb : websocket_callback g (receive (data, true))
            = (⟨g.g_instance, [], g.g_wsi, g.m_addresses⟩,
                if subscriptionKey <:+: g.g_receivedData ++ data then
                  [Effect.sendMessage ("WSS Update: ".toList ++ (g.g_receivedData ++ data))]
                else []) := by
          simp [receive, websocket_callback, hd, hinst, Ethereum.find_ne_none_iff]
        simp only [hcb, if_true]
        rw [ih ⟨g.g_instance, [], g.g_wsi, g.m_addresses⟩ hinst, updatesFor_cons]
      | false =>
        have hcb : websocket_callback g (receive (data, false))
            = (⟨g.g_instance, g.g_receivedData ++ data, g.g_wsi, g.m_addresses⟩, []) := by
          simp [receive, websocket_callback, hd]
        simp only [hcb, List.nil_append, Bool.false_eq_true, if_false]
        rw [ih ⟨g.g_instance, g.g_receivedData ++ data, g.g_wsi, g.m_addresses⟩ hinst]

/-- C12, the claim as stated fails: a message whose final fragment has length zero is not
forwarded although it contains `"method":"eth_subscription"`, and the buffer is not empty
after that final fragment. -/
theorem empty_final_fragment_not_forwarded :
    (runCallbacks ⟨true, [], some 1, []⟩
        ([("\"method\":\"eth_subscription\"".toList, false), ([], true)].map receive)).2
      ≠ updatesFor (completeMessages []
          [("\"method\":\"eth_subscription\"".toList, false), ([], true)]) ∧
    (runCallbacks ⟨true, [], some 1, []⟩
        ([("\"method\":\"eth_subscription\"".toList, false), ([], true)].map receive)).1.g_receivedData
      ≠ [] := by
  decide

/-- C12, amended. The receive callback ignores a fragment of length zero, final or not. For
every sequence of inbound fragments, with those of length zero left out, the
notifications sent are exactly, in order, `WSS Update: ` followed by `m` for each complete
message `m` (the fragments accumulated up to and including a final one) that contains
`"method":"eth_subscription"`; and the buffer is empty after every final fragment of
non-zero length, whether or not the message was forwarded. -/
theorem receive_forwards_subscription_updates (g : Globals) (hinst : g.g_instance = true)
    (frags : List (List Char × Bool)) :
    (∀ final, websocket_callback g (Reason.LWS_CALLBACK_CLIENT_RECEIVE [] final) = (g, [])) ∧
    (runCallbacks g (frags.map receive)).2
      = updatesFor (completeMessages g.g_receivedData
          (frags.filter fun f => decide (f.1 ≠ []))) ∧
    (∀ data, data ≠ [] →
      (runCallbacks g ((frags ++ [(data, true)]).map receive)).1.g_receivedData = []) := by
  refine ⟨fun final => by simp [websocket_callback], runCallbacks_receive frags g hinst, ?_⟩
  intro data hd
  rw [List.map_append, runCallbacks_append]
  simp [runCallbacks, receive, websocket_callback, hd]

/-- C12 amended, at an acknowledgment followed by an update in two fragments. -/
theorem receive_forwards_subscription_updates_witness :
    (⟨true, [], some 1, []⟩ : Globals).g_instance = true ∧
    (runCallbacks ⟨true, [], some 1, []⟩
        ([("\"result\":\"0x1\"".toList, true), ("\"method\":".toList, false),
          ("\"eth_subscription\"".toList, true)].map receive)).2
      = [Effect.sendMessage "WSS Update: \"method\":\"eth_subscription\"".toList] :=
  ⟨rfl, ((receive_forwards_subscription_updates ⟨true, [], some 1, []⟩ rfl
      [("\"result\":\"0x1\"".toList, true), ("\"method\":".toList, false),
        ("\"eth_subscription\"".toList, true)]).2.1).trans (by decide)⟩

end WebSocket

namespace WebSocket

theorem findFrom_char_some (c : Char) (pre rest : List Char) (i : Nat) (h : c ∉ pre) :
    Ethereum.findFrom [c] (pre ++ c :: rest) i = some (i + pre.length) := by
  induction pre generalizing i with
  | nil => simp [Ethereum.findFrom, List.isPrefixOf]
  | cons x xs ih =>
    have hx : x ≠ c := fun hxc => h (by simp [hxc])
    have hxs : c ∉ xs := fun hm => h (by simp [hm])
    have h0 : [c].isPrefixOf (x :: (xs ++ c :: rest)) = false := by
      simp [List.isPrefixOf, Ne.symm hx]
    rw [List.cons_append, Ethereum.findFrom, if_neg (by simp [h0]), ih (i + 1) hxs,
      List.length_cons]
    congr 1
    omega

theorem findFrom_char_none (c : Char) (s : List Char) (i : Nat) (h : c ∉ s) :
    Ethereum.findFrom [c] s i = none :=
  Ethereum.findFrom_none _ _ _ (fun hi => h (hi.subset (by simp)))

theorem stoi_fold_cast (ds : List Char) (h : ∀ c ∈ ds, 48 ≤ c.toNat ∧ c.toNat ≤ 57) :
    ∀ a : Nat, ds.foldl (fun (acc : Int) c => acc * 10 + ((c.toNat : Int) - 48)) (a : Int)
      = ((ds.foldl (fun acc c => acc * 10 + (c.toNat - 48)) a : Nat) : Int) := by
  induction ds with
  | nil => intro a; rfl
  | cons x xs ih =>
    intro a
    have hx := h x (List.mem_cons_self _ _)
    simp only [List.foldl_cons]
    have hstep : (a : Int) * 10 + ((x.toNat : Int) - 48) = ((a * 10 + (x.toNat - 48) : Nat) : Int) := by
      omega
    rw [hstep]
    exact ih (fun c hc => h c (List.mem_cons_of_mem _ hc)) _

theorem stoi_digits (ds : List Char) (hne : ds ≠ [])
    (h : ∀ c ∈ ds, 48 ≤ c.toNat ∧ c.toNat ≤ 57) (hfit : decimalValue ds ≤ 2147483647) :
    stoi ds = some (decimalValue ds : Int) := by
  obtain ⟨x, xs, rfl⟩ := List.exists_cons_of_ne_nil hne
  have hx := h x (List.mem_cons_self _ _)
  have hsp : Ethereum.isSpace x = false := by
    simp only [Ethereum.isSpace, Bool.or_eq_false_iff, Bool.and_eq_false_iff,
      decide_eq_false_iff_not]
    omega
  have hm : x ≠ '-' := by rintro rfl; revert hx; decide
  have hp : x ≠ '+' := by rintro rfl; revert hx; decide
  have htake : (x :: xs).takeWhile (fun c => decide (48 ≤ c.toNat ∧ c.toNat ≤ 57)) = x :: xs := by
    rw [List.takeWhile_eq_self_iff]
    intro c hc
    simpa using h c hc
  have hcast := stoi_fold_cast (x :: xs) h 0
  unfold stoi
  simp only [List.dropWhile_cons, hsp, List.head?_cons, Option.some.injEq, hm, hp, or_self,
    if_false, htake, Bool.false_eq_true, decide_False]
  rw [if_neg (by simp)]
  have hv : List.foldl (fun (acc : Int) c => acc * 10 + ((c.toNat : Int) - 48)) 0 (x :: xs)
      = (decimalValue (x :: xs) : Int) := by
    simpa [decimalValue] using hcast
  rw [hv, if_neg (by omega)]

theorem strip_scheme (tls : Bool) (x : List Char) :
    decide (((if tls then "wss://".toList else "ws://".toList) ++ x).take 6 = "wss://".toList)
      = tls ∧
    (if ((if tls then "wss://".toList else "ws://".toList) ++ x).take 6 = "wss://".toList then
        ((if tls then "wss://".toList else "ws://".toList) ++ x).drop 6
      else if ((if tls then "wss://".toList else "ws://".toList) ++ x).take 5 = "ws://".toList
        then ((if tls then "wss://".toList else "ws://".toList) ++ x).drop 5
      else (if tls then "wss://".toList else "ws://".toList) ++ x) = x := by
  cases tls with
  | true => simp
  | false => simp

theorem find_char_some (c : Char) (pre rest : List Char) (h : c ∉ pre) :
    Ethereum.find (pre ++ c :: rest) [c] 0 = some pre.length := by
  simp [Ethereum.find, findFrom_char_some c pre rest 0 h]

theorem find_char_none (c : Char) (s : List Char) (h : c ∉ s) :
    Ethereum.find s [c] 0 = none := by
  simp [Ethereum.find, findFrom_char_none c s 0 h]

theorem parseHostPath_host_only (useSSL : Bool) (host rest : List Char)
    (hcolon : ':' ∉ host) (hslash : '/' ∉ host) :
    parseHostPath useSSL host = some ⟨useSSL, host, if useSSL then 443 else 80, ['/']⟩ ∧
    parseHostPath useSSL (host ++ '/' :: rest)
      = some ⟨useSSL, host, if useSSL then 443 else 80, '/' :: rest⟩ := by
  constructor
  · unfold parseHostPath
    simp only [find_char_none '/' host hslash, find_char_none ':' host hcolon]
  · unfold parseHostPath
    simp only [find_char_some '/' host rest hslash, List.take_left' rfl, List.drop_left' rfl,
      find_char_none ':' host hcolon]

theorem parseHostPath_host_port (useSSL : Bool) (host ds : List Char) (rest : List Char)
    (hcolon : ':' ∉ host) (hslash : '/' ∉ host) (hne : ds ≠ [])
    (hdig : ∀ c ∈ ds, 48 ≤ c.toNat ∧ c.toNat ≤ 57) (hfit : decimalValue ds ≤ 2147483647) :
    parseHostPath useSSL (host ++ ':' :: ds)
      = some ⟨useSSL, host, (decimalValue ds : Int), ['/']⟩ ∧
    parseHostPath useSSL ((host ++ ':' :: ds) ++ '/' :: rest)
      = some ⟨useSSL, host, (decimalValue ds : Int), '/' :: rest⟩ := by
  have hs : '/' ∉ host ++ ':' :: ds := by
    intro hm
    rcases List.mem_append.mp hm with h1 | h1
    · exact hslash h1
    · rcases List.mem_cons.mp h1 with h2 | h2
      · revert h2; decide
      · have := hdig _ h2
        revert this; decide
  have hd : (host ++ ':' :: ds).drop (host.length + 1) = ds := by
    rw [← List.drop_drop, List.drop_left]
    rfl
  constructor
  · unfold parseHostPath
    simp only [find_char_none '/' _ hs, find_char_some ':' host ds hcolon, hd,
      stoi_digits ds hne hdig hfit, List.take_left' rfl]
  · unfold parseHostPath
    simp only [find_char_some '/' _ rest hs, List.take_left' rfl, List.drop_left' rfl,
      find_char_some ':' host ds hcolon, hd, stoi_digits ds hne hdig hfit]

/-- C17. For every endpoint `scheme://host[:port][/rest]` with scheme `wss` or `ws`, a host
containing neither `:` nor `/`, and a port written as decimal digits (denoting a number
that fits an `int`), the URL parsing of the monitor yields: TLS exactly for `wss`; the
explicit port when given, otherwise 443 for `wss` and 80 for `ws`; the host; and the path
`/` followed by `rest`, or `/` when no path is present. -/
theorem parseWssUrl_target (tls : Bool) (host : List Char) (port rest : Option (List Char))
    (hcolon : ':' ∉ host) (hslash : '/' ∉ host)
    (hport : ∀ ds, port = some ds →
      ds ≠ [] ∧ (∀ c ∈ ds, 48 ≤ c.toNat ∧ c.toNat ≤ 57) ∧ decimalValue ds ≤ 2147483647) :
    parseWssUrl (endpoint tls host port rest)
      = some ⟨tls, host,
          port.elim (if tls then 443 else 80) (fun ds => (decimalValue ds : Int)),
          rest.elim ['/'] (fun r => '/' :: r)⟩ := by
  obtain ⟨hs1, hs2⟩ := strip_scheme tls
    (host ++ port.elim [] (fun ds => ':' :: ds) ++ rest.elim [] (fun r => '/' :: r))
  unfold parseWssUrl endpoint
  simp only [← List.append_assoc] at hs1 hs2 ⊢
  simp only [hs1, hs2]
  cases port with
  | none =>
    cases rest with
    | none =>
      simpa [Option.elim] using (parseHostPath_host_only tls host [] hcolon hslash).1
    | some r =>
      simpa [Option.elim] using (parseHostPath_host_only tls host r hcolon hslash).2
  | some ds =>
    obtain ⟨hne, hdig, hfit⟩ := hport ds rfl
    cases rest with
    | none =>
      simpa [Option.elim] using
        (parseHostPath_host_port tls host ds [] hcolon hslash hne hdig hfit).1
    | some r =>
      simpa [Option.elim] using
        (parseHostPath_host_port tls host ds r hcolon hslash hne hdig hfit).2

/-- C17, at a `wss` endpoint with a port and a path. -/
theorem parseWssUrl_target_witness :
    ':' ∉ "node.example.org".toList ∧ '/' ∉ "node.example.org".toList ∧
    (∀ ds, some "8546".toList = some ds →
      ds ≠ [] ∧ (∀ c ∈ ds, 48 ≤ c.toNat ∧ c.toNat ≤ 57) ∧ decimalValue ds ≤ 2147483647) ∧
    endpoint true "node.example.org".toList (some "8546".toList) (some "ws/v3".toList)
      = "wss://node.example.org:8546/ws/v3".toList ∧
    parseWssUrl "wss://node.example.org:8546/ws/v3".toList
      = some ⟨true, "node.example.org".toList, 8546, "/ws/v3".toList⟩ := by
  have hp : ∀ ds, some "8546".toList = some ds →
      ds ≠ [] ∧ (∀ c ∈ ds, 48 ≤ c.toNat ∧ c.toNat ≤ 57) ∧ decimalValue ds ≤ 2147483647 := by
    intro ds h
    have : ds = "8546".toList := by simpa using h.symm
    subst this
    decide
  have he : endpoint true "node.example.org".toList (some "8546".toList) (some "ws/v3".toList)
      = "wss://node.example.org:8546/ws/v3".toList := by decide
  refine ⟨by decide, by decide, hp, he, ?_⟩
  have h := parseWssUrl_target true "node.example.org".toList (some "8546".toList)
    (some "ws/v3".toList) (by decide) (by decide) hp
  rw [he] at h
  exact h.trans (by decide)

end WebSocket
